import Mathlib

/-!
Verification of the metadata patch engine of `metaeditor_safetensors`.

The safetensors container is `[8-byte little-endian header length][UTF-8 JSON
header][tensor payload]`.  The repository reads the header, merges a flat
string-to-string metadata edit into the header's `"__metadata__"` object, and
rewrites the file so that only the header changes.

Files are modelled as lists of byte values (`List Nat`, each below 256).
JSON values are modelled by the inductive `Json` below; strings are lists of
Unicode code points.  The Python standard-library `json` module (as used by
the sources: `json.dumps(..., separators=(',', ':'))` with its default
`ensure_ascii=True`, and `json.loads`) is modelled by the executable
serializer `dumpsB` and the fuel-based reader `jVal`/`loads` below.  Numbers
in plain nonnegative integer form (the only numbers safetensors headers carry)
are parsed to `.num`; every other number form Python accepts (a sign, a
fraction, an exponent, `NaN`, `Infinity`, `-Infinity`) is accepted and kept
verbatim as its source token (`.rawnum`), so the reader's acceptance domain
matches Python's scanner.  Python `dict` semantics (insertion order, last
duplicate key wins) are modelled by `getKey`/`setKey`/`collapseKeys`.
-/

/-- Code points of an ASCII Lean string, used to write byte-level constants. -/
def asc (s : String) : List Nat := s.toList.map Char.toNat

/-- Value of a little-endian byte list, as `int.from_bytes(bs, "little")`. -/
def leVal (bs : List Nat) : Nat := bs.foldr (fun b acc => b + 256 * acc) 0

/-- Little-endian byte encoding of `n` on `k` bytes, as `n.to_bytes(k, "little")`
(the sources always call it with `k = 8` and `n` below `2^64`). -/
def leBytes : Nat → Nat → List Nat
  | 0, _ => []
  | k + 1, n => n % 256 :: leBytes k (n / 256)

theorem leBytes_length (k n : Nat) : (leBytes k n).length = k := by
  induction k generalizing n with
  | zero => rfl
  | succ k ih => simp [leBytes, ih]

theorem leVal_leBytes (k n : Nat) : leVal (leBytes k n) = n % 256 ^ k := by
  induction k generalizing n with
  | zero => simp [leBytes, leVal, Nat.mod_one]
  | succ k ih =>
    have h256 : 256 ^ (k + 1) = 256 * 256 ^ k := by ring
    simp only [leBytes, leVal, List.foldr_cons] at *
    rw [ih (n / 256), h256, Nat.mod_mul]

theorem leVal_leBytes_of_lt {k n : Nat} (h : n < 256 ^ k) : leVal (leBytes k n) = n := by
  rw [leVal_leBytes, Nat.mod_eq_of_lt h]

/-- A JSON value as produced by Python's `json.loads` on a safetensors header:
`null`, booleans, (nonnegative integer) numbers, strings as code-point lists,
arrays, and objects as ordered key/value lists. -/
inductive Json where
  | null
  | bool (b : Bool)
  | num (n : Nat)
  | rawnum (t : List Nat)
  | str (s : List Nat)
  | arr (elems : List Json)
  | obj (membs : List (List Nat × Json))
deriving Repr

mutual

/-- Structural Boolean equality on `Json` (the derive handler does not cover
this nested inductive, so it is spelled out). -/
def jeq : Json → Json → Bool
  | .null, .null => true
  | .bool a, .bool b => a = b
  | .num a, .num b => a = b
  | .rawnum a, .rawnum b => a = b
  | .str a, .str b => a = b
  | .arr a, .arr b => jeqA a b
  | .obj a, .obj b => jeqM a b
  | _, _ => false

/-- Elementwise `jeq` on value lists. -/
def jeqA : List Json → List Json → Bool
  | [], [] => true
  | a :: as, b :: bs => jeq a b && jeqA as bs
  | _, _ => false

/-- Elementwise key and `jeq`-value equality on member lists. -/
def jeqM : List (List Nat × Json) → List (List Nat × Json) → Bool
  | [], [] => true
  | (k, v) :: as, (k', v') :: bs => k = k' && jeq v v' && jeqM as bs
  | _, _ => false

end

mutual

theorem jeq_iff : ∀ (a b : Json), jeq a b = true ↔ a = b
  | .null, b => by cases b <;> simp [jeq]
  | .bool x, b => by cases b <;> simp [jeq]
  | .num x, b => by cases b <;> simp [jeq]
  | .rawnum x, b => by cases b <;> simp [jeq]
  | .str x, b => by cases b <;> simp [jeq]
  | .arr xs, b => by cases b <;> simp [jeq, jeqA_iff xs]
  | .obj xs, b => by cases b <;> simp [jeq, jeqM_iff xs]

theorem jeqA_iff : ∀ (as bs : List Json), jeqA as bs = true ↔ as = bs
  | [], bs => by cases bs <;> simp [jeqA]
  | a :: as, bs => by
    cases bs with
    | nil => simp [jeqA]
    | cons b bs => simp [jeqA, jeq_iff a b, jeqA_iff as bs]

theorem jeqM_iff : ∀ (as bs : List (List Nat × Json)), jeqM as bs = true ↔ as = bs
  | [], bs => by cases bs <;> simp [jeqM]
  | (k, v) :: as, bs => by
    cases bs with
    | nil => simp [jeqM]
    | cons b bs =>
      obtain ⟨k', v'⟩ := b
      simp [jeqM, jeq_iff v v', jeqM_iff as bs, and_assoc]

end

instance : DecidableEq Json := fun a b => decidable_of_iff _ (jeq_iff a b)

/-- First value stored under key `k`, as Python `d[k]` / `k in d` on the
insertion-ordered dict (keys are unique in any dict produced by `json.loads`). -/
def getKey : List (List Nat × Json) → List Nat → Option Json
  | [], _ => none
  | (k', v) :: ms, k => if k' = k then some v else getKey ms k

/-- Whether the object carries key `k`, as Python `k in d`. -/
def hasKey (ms : List (List Nat × Json)) (k : List Nat) : Bool :=
  ms.any fun p => p.1 = k

/-- Replace the value at every pair whose key is `k` (on unique-key lists this
is the single slot Python `d[k] = v` overwrites). -/
def replaceKey : List (List Nat × Json) → List Nat → Json → List (List Nat × Json)
  | [], _, _ => []
  | (k', v') :: ms, k, v =>
    if k' = k then (k, v) :: replaceKey ms k v else (k', v') :: replaceKey ms k v

/-- Python `d[k] = v` on the insertion-ordered dict: overwrite in place when the
key exists, append otherwise. -/
def setKey (ms : List (List Nat × Json)) (k : List Nat) (v : Json) :
    List (List Nat × Json) :=
  if hasKey ms k then replaceKey ms k v else ms ++ [(k, v)]

/-- Model of `utils.merge_metadata` and of `dict.update`: fold the update pairs
into the existing dict, overwrite-or-insert, in update order. -/
def merge_metadata (existing updates : List (List Nat × Json)) :
    List (List Nat × Json) :=
  updates.foldl (fun d p => setKey d p.1 p.2) existing

/-- Build a Python dict from parsed key/value pairs: later duplicate keys
overwrite the value at the first occurrence's position. -/
def collapseKeys (ms : List (List Nat × Json)) : List (List Nat × Json) :=
  ms.foldl (fun d p => setKey d p.1 p.2) []

/-- Decimal digit codes of `n`, most significant first, as Python's `str(n)`. -/
def natDigits (n : Nat) : List Nat :=
  if n < 10 then [48 + n]
  else natDigits (n / 10) ++ [48 + n % 10]
decreasing_by exact Nat.div_lt_self (by omega) (by omega)

/-- Lowercase hex digit code for `d < 16`. -/
def hexDig (d : Nat) : Nat := if d < 10 then 48 + d else 87 + d

/-- Four lowercase hex digit codes of `n < 65536`, as in a `\uXXXX` escape. -/
def hex4 (n : Nat) : List Nat :=
  [hexDig (n / 4096 % 16), hexDig (n / 256 % 16), hexDig (n / 16 % 16), hexDig (n % 16)]

/-- Escape of one code point under `json.dumps` with its default
`ensure_ascii=True`: two-character escapes for the JSON specials, `\uXXXX` for
other control characters and for everything outside printable ASCII, with a
surrogate pair for code points above `0xFFFF`. -/
def escChar (c : Nat) : List Nat :=
  if c = 34 then [92, 34]
  else if c = 92 then [92, 92]
  else if c = 8 then [92, 98]
  else if c = 12 then [92, 102]
  else if c = 10 then [92, 110]
  else if c = 13 then [92, 114]
  else if c = 9 then [92, 116]
  else if c < 32 then 92 :: 117 :: hex4 c
  else if c < 127 then [c]
  else if c < 65536 then 92 :: 117 :: hex4 c
  else
    92 :: 117 :: hex4 (55296 + (c - 65536) / 1024) ++
      (92 :: 117 :: hex4 (56320 + (c - 65536) % 1024))

/-- Serialized form of a JSON string: quote, escaped body, quote. -/
def dumpStr (s : List Nat) : List Nat := 34 :: (s.flatMap escChar ++ [34])

mutual

/-- Byte serialization of a JSON value exactly as
`json.dumps(value, separators=(',', ':')).encode('utf-8')` produces it: compact
separators, `ensure_ascii` escaping (so the output is pure ASCII and the UTF-8
encoding step is the identity on it). -/
def dumpsB : Json → List Nat
  | .null => [110, 117, 108, 108]
  | .bool true => [116, 114, 117, 101]
  | .bool false => [102, 97, 108, 115, 101]
  | .num n => natDigits n
  | .rawnum t => t
  | .str s => dumpStr s
  | .arr es => 91 :: (dumpElems es ++ [93])
  | .obj ms => 123 :: (dumpMembs ms ++ [125])

/-- Serialized array elements (no brackets): empty, or head then separated tail. -/
def dumpElems : List Json → List Nat
  | [] => []
  | e :: es => dumpsB e ++ dumpElemSep es

/-- Comma-prefixed serialization of each remaining array element. -/
def dumpElemSep : List Json → List Nat
  | [] => []
  | e :: es => 44 :: (dumpsB e ++ dumpElemSep es)

/-- Serialized object members (no braces): empty, or head pair then tail. -/
def dumpMembs : List (List Nat × Json) → List Nat
  | [] => []
  | (k, v) :: ms => dumpStr k ++ 58 :: (dumpsB v ++ dumpMembSep ms)

/-- Comma-prefixed serialization of each remaining object member. -/
def dumpMembSep : List (List Nat × Json) → List Nat
  | [] => []
  | (k, v) :: ms => 44 :: (dumpStr k ++ 58 :: (dumpsB v ++ dumpMembSep ms))

end

/-- A code point a Python `str` element obtained from decoding UTF-8 can carry:
below `0x110000` and not a surrogate.  Strings of such points serialize and
re-read losslessly (Python itself re-joins an adjacent escaped surrogate pair,
so strings holding lone surrogates would not round-trip). -/
def okCp (c : Nat) : Bool := c < 55296 || (57344 ≤ c && c < 1114112)

mutual

/-- Well-formedness a header produced by Python carries: every string is made
of `okCp` code points and every object has pairwise distinct keys. -/
def wfJ : Json → Bool
  | .null => true
  | .bool _ => true
  | .num _ => true
  | .rawnum _ => false
  | .str s => s.all okCp
  | .arr es => wfArr es
  | .obj ms => wfMembs ms

/-- All array elements well-formed. -/
def wfArr : List Json → Bool
  | [] => true
  | e :: es => wfJ e && wfArr es

/-- All keys `okCp`-clean and mutually distinct, all values well-formed. -/
def wfMembs : List (List Nat × Json) → Bool
  | [] => true
  | (k, v) :: ms => k.all okCp && wfJ v && !hasKey ms k && wfMembs ms

end

/-- JSON whitespace accepted by Python's scanner: space, tab, newline, return. -/
def isWsB (c : Nat) : Bool := c = 32 || c = 9 || c = 10 || c = 13

/-- Drop leading JSON whitespace. -/
def skipWs : List Nat → List Nat
  | [] => []
  | c :: cs => if isWsB c then skipWs cs else c :: cs

/-- ASCII decimal digit test. -/
def isDigitB (c : Nat) : Bool := 48 ≤ c && c ≤ 57

/-- Value of one hex digit code (either case), as in `\uXXXX` decoding. -/
def hexVal (c : Nat) : Option Nat :=
  if 48 ≤ c ∧ c ≤ 57 then some (c - 48)
  else if 97 ≤ c ∧ c ≤ 102 then some (c - 87)
  else if 65 ≤ c ∧ c ≤ 70 then some (c - 55)
  else none

/-- Value of a four-hex-digit escape payload. -/
def hex4Val (a b c d : Nat) : Option Nat :=
  match hexVal a, hexVal b, hexVal c, hexVal d with
  | some x, some y, some z, some w => some (x * 4096 + y * 256 + z * 16 + w)
  | _, _, _, _ => none

/-- Unescaped value of a single-character escape (`\"`, `\\`, `\/`, `\b`, `\f`,
`\n`, `\r`, `\t`). -/
def unesc (e : Nat) : Option Nat :=
  if e = 34 then some 34
  else if e = 92 then some 92
  else if e = 47 then some 47
  else if e = 98 then some 8
  else if e = 102 then some 12
  else if e = 110 then some 10
  else if e = 114 then some 13
  else if e = 116 then some 9
  else none

mutual

/-- Read a JSON string body after the opening quote, as Python's `scanstring`
in strict mode: ends at `"`, rejects raw control characters, decodes the
single-character and `\uXXXX` escapes (`jEsc`), and re-joins an escaped high
surrogate immediately followed by an escaped low surrogate into one code
point (`jSurr`). -/
def jStr : List Nat → Option (List Nat × List Nat)
  | [] => none
  | c :: cs =>
    if c = 34 then some ([], cs)
    else if c = 92 then jEsc cs
    else if c < 32 then none
    else (jStr cs).map fun p => (c :: p.1, p.2)
termination_by s => 4 * s.length
decreasing_by all_goals (try simp only [List.length_cons]) <;> omega

/-- Continue a string body just after a backslash. -/
def jEsc : List Nat → Option (List Nat × List Nat)
  | [] => none
  | e :: cs1 =>
    if e = 117 then
      match cs1 with
      | h1 :: h2 :: h3 :: h4 :: cs2 => jEscU (hex4Val h1 h2 h3 h4) cs2
      | _ => none
    else
      match unesc e with
      | some ch => (jStr cs1).map fun p => (ch :: p.1, p.2)
      | none => none
termination_by s => 4 * s.length + 3
decreasing_by all_goals (try simp only [List.length_cons]) <;> omega

/-- Continue a string body given the decoded value of a `\uXXXX` escape. -/
def jEscU : Option Nat → List Nat → Option (List Nat × List Nat)
  | none, _ => none
  | some u, cs2 =>
    if 55296 ≤ u ∧ u ≤ 56319 then jSurr u cs2
    else (jStr cs2).map fun p => (u :: p.1, p.2)
termination_by _ s => 4 * s.length + 11
decreasing_by all_goals (try simp only [List.length_cons]) <;> omega

/-- Continue a string body just after an escaped high surrogate `u`: pair it
with an immediately following escaped low surrogate, else keep it lone. -/
def jSurr (u : Nat) : List Nat → Option (List Nat × List Nat)
  | 92 :: 117 :: g1 :: g2 :: g3 :: g4 :: cs3 =>
    jSurrU u (hex4Val g1 g2 g3 g4) g1 g2 g3 g4 cs3
  | other => (jStr other).map fun p => (u :: p.1, p.2)
termination_by s => 4 * s.length + 10
decreasing_by all_goals (try simp only [List.length_cons]) <;> omega

/-- Continue a string body after a high surrogate `u` given the decoded value
of the next `\uXXXX` escape (whose four hex digit codes are `g1 g2 g3 g4`). -/
def jSurrU (u : Nat) : Option Nat → Nat → Nat → Nat → Nat → List Nat →
    Option (List Nat × List Nat)
  | none, _, _, _, _, _ => none
  | some u2, g1, g2, g3, g4, cs3 =>
    if 56320 ≤ u2 ∧ u2 ≤ 57343 then
      (jStr cs3).map fun p =>
        ((65536 + (u - 55296) * 1024 + (u2 - 56320)) :: p.1, p.2)
    else
      (jStr (92 :: 117 :: g1 :: g2 :: g3 :: g4 :: cs3)).map fun p => (u :: p.1, p.2)
termination_by _ _ _ _ _ s => 4 * s.length + 26
decreasing_by all_goals (try simp only [List.length_cons]) <;> omega

end

/-- Split a leading run of decimal digit codes from the input. -/
def digitsRun : List Nat → List Nat × List Nat
  | [] => ([], [])
  | c :: cs =>
    if isDigitB c then
      let p := digitsRun cs
      (c :: p.1, p.2)
    else ([], c :: cs)

/-- Numeric value of a digit-code list, most significant first. -/
def digitsVal (ds : List Nat) : Nat := ds.foldl (fun a c => a * 10 + (c - 48)) 0

/-- Integer part of a JSON number: `0` (taking no further digits, the JSON
grammar's leading-zero rule), or a nonzero digit followed by a digit run. -/
def intPart : List Nat → Option (List Nat × List Nat)
  | [] => none
  | c :: cs =>
    if c = 48 then some ([48], cs)
    else if isDigitB c then
      let p := digitsRun cs
      some (c :: p.1, p.2)
    else none

/-- Optional fraction part `.digits+` of a JSON number, as the scanner regex
`(?:\.\d+)?` consumes it: a dot not followed by a digit is left in place. -/
def fracPart (s : List Nat) : List Nat × List Nat :=
  match s with
  | c :: c2 :: cs =>
    if c = 46 ∧ isDigitB c2 then
      let p := digitsRun cs
      (46 :: c2 :: p.1, p.2)
    else ([], s)
  | _ => ([], s)

/-- Optional exponent part `[eE][+-]?digits+` of a JSON number, as the scanner
regex `(?:[eE][-+]?\d+)?` consumes it: an exponent letter without following
digits is left in place. -/
def expPart (s : List Nat) : List Nat × List Nat :=
  match s with
  | e :: c :: cs =>
    if (e = 101 ∨ e = 69) ∧ isDigitB c then
      let p := digitsRun cs
      (e :: c :: p.1, p.2)
    else if (e = 101 ∨ e = 69) ∧ (c = 43 ∨ c = 45) then
      match cs with
      | d :: ds =>
        if isDigitB d then
          let p := digitsRun ds
          (e :: c :: d :: p.1, p.2)
        else ([], s)
      | [] => ([], s)
    else ([], s)
  | _ => ([], s)

/-- Read a JSON number exactly as Python's scanner matches
`-?(0|[1-9]\d*)(\.\d+)?([eE][-+]?\d+)?`: a plain nonnegative integer (the
only number form safetensors headers carry) becomes `.num` of its value, and
every other accepted form — a sign, a fraction or an exponent — is kept as
`.rawnum` of its token (Python would hold an `int` or `float` here, which the
code under verification never computes with). -/
def jNumFull (s : List Nat) : Option (Json × List Nat) :=
  let sign : List Nat := if s.head? = some 45 then [45] else []
  let s1 := if s.head? = some 45 then s.tail else s
  match intPart s1 with
  | none => none
  | some (ds, r1) =>
    let fp := fracPart r1
    let ep := expPart fp.2
    if sign.isEmpty && fp.1.isEmpty && ep.1.isEmpty then
      some (.num (digitsVal ds), ep.2)
    else some (.rawnum (sign ++ ds ++ fp.1 ++ ep.1), ep.2)

mutual

/-- Read one JSON value, dispatching on the first non-whitespace character as
Python's scanner does.  `fuel` only bounds the recursion; `s.length + 1` is
always enough (see the reading lemmas below). -/
def jVal : Nat → List Nat → Option (Json × List Nat)
  | 0, _ => none
  | fuel + 1, s =>
    match skipWs s with
    | [] => none
    | c :: r =>
      if c = 110 then
        match r with
        | 117 :: 108 :: 108 :: r1 => some (.null, r1)
        | _ => none
      else if c = 116 then
        match r with
        | 114 :: 117 :: 101 :: r1 => some (.bool true, r1)
        | _ => none
      else if c = 102 then
        match r with
        | 97 :: 108 :: 115 :: 101 :: r1 => some (.bool false, r1)
        | _ => none
      else if c = 34 then (jStr r).map fun p => (.str p.1, p.2)
      else if c = 91 then
        match skipWs r with
        | [] => none
        | c1 :: r1 =>
          if c1 = 93 then some (.arr [], r1)
          else (jElems fuel (c1 :: r1)).map fun p => (.arr p.1, p.2)
      else if c = 123 then
        match skipWs r with
        | [] => none
        | c1 :: r1 =>
          if c1 = 125 then some (.obj [], r1)
          else (jMembs fuel (c1 :: r1)).map fun p => (.obj p.1, p.2)
      else if isDigitB c then jNumFull (c :: r)
      else if c = 45 then
        match jNumFull (45 :: r) with
        | some p => some p
        | none =>
          match r with
          | 73 :: 110 :: 102 :: 105 :: 110 :: 105 :: 116 :: 121 :: r1 =>
            some (.rawnum (asc "-Infinity"), r1)
          | _ => none
      else if c = 78 then
        match r with
        | 97 :: 78 :: r1 => some (.rawnum (asc "NaN"), r1)
        | _ => none
      else if c = 73 then
        match r with
        | 110 :: 102 :: 105 :: 110 :: 105 :: 116 :: 121 :: r1 =>
          some (.rawnum (asc "Infinity"), r1)
        | _ => none
      else none

/-- Read one-or-more comma-separated array elements followed by `]`. -/
def jElems : Nat → List Nat → Option (List Json × List Nat)
  | 0, _ => none
  | fuel + 1, s =>
    match jVal fuel s with
    | none => none
    | some (v, r) =>
      match skipWs r with
      | [] => none
      | c :: r1 =>
        if c = 44 then (jElems fuel r1).map fun p => (v :: p.1, p.2)
        else if c = 93 then some ([v], r1)
        else none

/-- Read one-or-more `"key": value` members followed by `}`. -/
def jMembs : Nat → List Nat → Option (List (List Nat × Json) × List Nat)
  | 0, _ => none
  | fuel + 1, s =>
    match skipWs s with
    | [] => none
    | c :: r =>
      if c = 34 then
        match jStr r with
        | none => none
        | some (k, r1) =>
          match skipWs r1 with
          | [] => none
          | c1 :: r2 =>
            if c1 = 58 then
              match jVal fuel r2 with
              | none => none
              | some (v, r3) =>
                match skipWs r3 with
                | [] => none
                | c2 :: r4 =>
                  if c2 = 44 then (jMembs fuel r4).map fun p => ((k, v) :: p.1, p.2)
                  else if c2 = 125 then some ([(k, v)], r4)
                  else none
            else none
      else none

end

mutual

/-- Normalize parsed member lists into Python dict form: values first, then
later duplicate keys overwrite the value at the first occurrence's position.
On duplicate-free input this is the identity (`ddup_wf` below). -/
def ddup : Json → Json
  | .null => .null
  | .bool b => .bool b
  | .num n => .num n
  | .rawnum t => .rawnum t
  | .str s => .str s
  | .arr es => .arr (ddupArr es)
  | .obj ms => .obj (collapseKeys (ddupMembs ms))

/-- Normalize each element of an array. -/
def ddupArr : List Json → List Json
  | [] => []
  | e :: es => ddup e :: ddupArr es

/-- Normalize each value of a member list (keys untouched, order kept). -/
def ddupMembs : List (List Nat × Json) → List (List Nat × Json)
  | [] => []
  | (k, v) :: ms => (k, ddup v) :: ddupMembs ms

end

/-- Read a complete JSON document from code points, as `json.loads` on an
already-decoded string: one value, with only whitespace around it, duplicate
object keys collapsed dict-style. -/
def rawLoads (s : List Nat) : Option Json :=
  match jVal (s.length + 1) s with
  | some (j, r) => if skipWs r = [] then some (ddup j) else none
  | none => none

/-- Continuation byte test for UTF-8. -/
def cont (b : Nat) : Bool := 128 ≤ b && b ≤ 191

mutual

/-- Strict UTF-8 decoding of a byte list into code points, as Python
`bytes.decode('utf-8')`: rejects overlong forms, surrogates and values above
`0x10FFFF` by the standard lead/continuation range table. -/
def utf8Decode : List Nat → Option (List Nat)
  | [] => some []
  | b :: bs =>
    if b < 128 then (utf8Decode bs).map (b :: ·)
    else if 194 ≤ b ∧ b ≤ 223 then utf8Two b bs
    else if 224 ≤ b ∧ b ≤ 239 then utf8Three b bs
    else if 240 ≤ b ∧ b ≤ 244 then utf8Four b bs
    else none
termination_by s => 2 * s.length
decreasing_by all_goals (try simp only [List.length_cons]) <;> omega

/-- Decode the rest of a two-byte sequence with lead byte `b`. -/
def utf8Two (b : Nat) : List Nat → Option (List Nat)
  | b2 :: bs2 =>
    if cont b2 then (utf8Decode bs2).map (((b - 192) * 64 + (b2 - 128)) :: ·)
    else none
  | _ => none
termination_by s => 2 * s.length + 1
decreasing_by all_goals (try simp only [List.length_cons]) <;> omega

/-- Decode the rest of a three-byte sequence with lead byte `b`. -/
def utf8Three (b : Nat) : List Nat → Option (List Nat)
  | b2 :: b3 :: bs3 =>
    if (if b = 224 then 160 else 128) ≤ b2 ∧ b2 ≤ (if b = 237 then 159 else 191)
        ∧ cont b3 then
      (utf8Decode bs3).map (((b - 224) * 4096 + (b2 - 128) * 64 + (b3 - 128)) :: ·)
    else none
  | _ => none
termination_by s => 2 * s.length + 1
decreasing_by all_goals (try simp only [List.length_cons]) <;> omega

/-- Decode the rest of a four-byte sequence with lead byte `b`. -/
def utf8Four (b : Nat) : List Nat → Option (List Nat)
  | b2 :: b3 :: b4 :: bs4 =>
    if (if b = 240 then 144 else 128) ≤ b2 ∧ b2 ≤ (if b = 244 then 143 else 191)
        ∧ cont b3 ∧ cont b4 then
      (utf8Decode bs4).map
        (((b - 240) * 262144 + (b2 - 128) * 4096 + (b3 - 128) * 64 + (b4 - 128)) :: ·)
    else none
  | _ => none
termination_by s => 2 * s.length + 1
decreasing_by all_goals (try simp only [List.length_cons]) <;> omega

end

/-- Read a JSON document from raw bytes: UTF-8 decode, then `rawLoads`, as the
sources' `json.loads(header_bytes.decode('utf-8'))`. -/
def loadsBytes (b : List Nat) : Option Json :=
  (utf8Decode b).bind rawLoads

/-- A remainder list that cannot extend a serialized number token: empty, or
headed by a character that is no digit, no decimal point and no exponent
letter.  Every separator the serializer emits after a number (`,`, `]`, `}`)
qualifies, as does end of input. -/
def noDig : List Nat → Bool
  | [] => true
  | c :: _ => !(isDigitB c || c = 46 || c = 101 || c = 69)

theorem natDigits_small {n : Nat} (h : n < 10) : natDigits n = [48 + n] := by
  rw [natDigits]
  simp [h]

theorem natDigits_big {n : Nat} (h : ¬n < 10) :
    natDigits n = natDigits (n / 10) ++ [48 + n % 10] := by
  rw [natDigits]
  simp [h]

theorem natDigits_digit (n : Nat) : ∀ c ∈ natDigits n, isDigitB c = true := by
  induction n using Nat.strong_induction_on with
  | _ n ih =>
    intro c hc
    by_cases h : n < 10
    · rw [natDigits_small h] at hc
      simp only [List.mem_singleton] at hc
      subst hc
      simp [isDigitB]
      omega
    · rw [natDigits_big h] at hc
      rcases List.mem_append.1 hc with h1 | h1
      · exact ih (n / 10) (Nat.div_lt_self (by omega) (by omega)) c h1
      · simp only [List.mem_singleton] at h1
        subst h1
        simp [isDigitB]
        omega

theorem natDigits_cons (n : Nat) :
    ∃ c t, natDigits n = c :: t ∧ isDigitB c = true := by
  match h : natDigits n with
  | [] =>
    exfalso
    by_cases h10 : n < 10
    · rw [natDigits_small h10] at h
      cases h
    · rw [natDigits_big h10] at h
      exact absurd h (by simp)
  | c :: t => exact ⟨c, t, rfl, natDigits_digit n c (h ▸ List.mem_cons_self ..)⟩

theorem natDigits_cons_pos (n : Nat) (hn : 0 < n) :
    ∃ c t, natDigits n = c :: t ∧ 49 ≤ c ∧ c ≤ 57 := by
  induction n using Nat.strong_induction_on with
  | _ n ih =>
    by_cases h : n < 10
    · exact ⟨48 + n, [], natDigits_small h, by omega, by omega⟩
    · obtain ⟨c, t, hct, h1, h2⟩ :=
        ih (n / 10) (Nat.div_lt_self (by omega) (by omega)) (by omega)
      exact ⟨c, t ++ [48 + n % 10], by rw [natDigits_big h, hct]; rfl, h1, h2⟩

theorem digitsVal_natDigits (n : Nat) : digitsVal (natDigits n) = n := by
  induction n using Nat.strong_induction_on with
  | _ n ih =>
    by_cases h : n < 10
    · rw [natDigits_small h]
      simp [digitsVal]
    · rw [natDigits_big h]
      simp only [digitsVal, List.foldl_append, List.foldl_cons, List.foldl_nil]
      have := ih (n / 10) (Nat.div_lt_self (by omega) (by omega))
      simp only [digitsVal] at this
      rw [this]
      omega

theorem noDig_head {c : Nat} {t : List Nat} (h : noDig (c :: t) = true) :
    isDigitB c = false ∧ ¬c = 46 ∧ ¬c = 101 ∧ ¬c = 69 := by
  simp only [noDig, Bool.not_eq_true', Bool.or_eq_false_iff,
    decide_eq_false_iff_not] at h
  exact ⟨h.1.1.1, h.1.1.2, h.1.2, h.2⟩

theorem digitsRun_stop {rest : List Nat} (h : noDig rest = true) :
    digitsRun rest = ([], rest) := by
  cases rest with
  | nil => rfl
  | cons c t =>
    simp [digitsRun, (noDig_head h).1]

theorem digitsRun_all (ds : List Nat) (hds : ∀ c ∈ ds, isDigitB c = true)
    {rest : List Nat} (hr : noDig rest = true) :
    digitsRun (ds ++ rest) = (ds, rest) := by
  induction ds with
  | nil => simpa using digitsRun_stop hr
  | cons c t ih =>
    have hc : isDigitB c = true := hds c (by simp)
    have ht := ih fun x hx => hds x (by simp [hx])
    simp [digitsRun, hc, ht]

theorem intPart_natDigits (n : Nat) {rest : List Nat} (hr : noDig rest = true) :
    intPart (natDigits n ++ rest) = some (natDigits n, rest) := by
  by_cases h : n < 10
  · rw [natDigits_small h]
    by_cases h0 : n = 0
    · subst h0
      simp [intPart]
    · have : ¬(48 + n = 48) := by omega
      simp only [List.cons_append, List.nil_append, intPart, this, if_false]
      rw [if_pos (by simp [isDigitB]; omega)]
      rw [digitsRun_stop hr]
  · obtain ⟨c, t, hct, hc1, hc2⟩ := natDigits_cons_pos n (by omega)
    rw [hct]
    have hdt : ∀ x ∈ t, isDigitB x = true := by
      intro x hx
      exact natDigits_digit n x (by rw [hct]; exact List.mem_cons_of_mem _ hx)
    simp only [List.cons_append, intPart]
    rw [if_neg (by omega), if_pos (by simp [isDigitB]; omega)]
    rw [digitsRun_all t hdt hr]

theorem fracPart_stop {rest : List Nat} (h : noDig rest = true) :
    fracPart rest = ([], rest) := by
  cases rest with
  | nil => rfl
  | cons c t =>
    cases t with
    | nil => rfl
    | cons c2 t2 =>
      have hc := (noDig_head h).2.1
      simp only [fracPart]
      rw [if_neg (by simp [hc])]

theorem expPart_stop {rest : List Nat} (h : noDig rest = true) :
    expPart rest = ([], rest) := by
  cases rest with
  | nil => rfl
  | cons c t =>
    cases t with
    | nil => rfl
    | cons c2 t2 =>
      have hc := noDig_head h
      simp only [expPart]
      rw [if_neg (by simp [hc.2.2.1, hc.2.2.2]), if_neg (by simp [hc.2.2.1, hc.2.2.2])]

/-- Reading back a serialized integer recovers it, whatever well-delimited
remainder follows: the canonical digits take no sign, fraction or exponent. -/
theorem jNumFull_natDigits (n : Nat) {rest : List Nat} (hr : noDig rest = true) :
    jNumFull (natDigits n ++ rest) = some (.num n, rest) := by
  obtain ⟨c, t, hct, hd⟩ := natDigits_cons n
  rw [hct, List.cons_append]
  have hb : 48 ≤ c ∧ c ≤ 57 := by simpa [isDigitB] using hd
  have hc45 : ¬((c :: (t ++ rest)).head? = some 45) := by
    simp only [List.head?_cons, Option.some.injEq]
    omega
  have hip : intPart (c :: (t ++ rest)) = some (c :: t, rest) := by
    have h2 := intPart_natDigits n hr
    rwa [hct, List.cons_append] at h2
  have hdv : digitsVal (c :: t) = n := by
    rw [← hct]
    exact digitsVal_natDigits n
  simp only [jNumFull, if_neg hc45, hip, fracPart_stop hr, expPart_stop hr]
  simp [hdv]

theorem hexVal_hexDig (d : Nat) (h : d < 16) : hexVal (hexDig d) = some d := by
  interval_cases d <;> decide

theorem hex4Val_hex4 {n : Nat} (h : n < 65536) :
    hex4Val (hexDig (n / 4096 % 16)) (hexDig (n / 256 % 16))
      (hexDig (n / 16 % 16)) (hexDig (n % 16)) = some n := by
  have h1 := hexVal_hexDig (n / 4096 % 16) (by omega)
  have h2 := hexVal_hexDig (n / 256 % 16) (by omega)
  have h3 := hexVal_hexDig (n / 16 % 16) (by omega)
  have h4 := hexVal_hexDig (n % 16) (by omega)
  simp only [hex4Val, h1, h2, h3, h4]
  congr 1
  omega

/-- One-step reading of a literal (unescaped) string character. -/
theorem jStr_other (c : Nat) (h34 : ¬c = 34) (h92 : ¬c = 92) (hctl : ¬c < 32)
    (cs : List Nat) :
    jStr (c :: cs) = (jStr cs).map fun p => (c :: p.1, p.2) := by
  rw [jStr.eq_def]
  norm_num [h34, h92, hctl]

/-- One-step reading of a single-character escape. -/
theorem jEsc_single (e ch : Nat) (he : ¬e = 117) (h : unesc e = some ch)
    (rest : List Nat) :
    jEsc (e :: rest) = (jStr rest).map fun p => (ch :: p.1, p.2) := by
  rw [jEsc.eq_def]
  norm_num [he]
  rw [h]

/-- Reading one escaped code point undoes `escChar` and continues, for every
code point a decoded Python string can carry. -/
theorem jStr_esc {c : Nat} (hc : okCp c = true) (rest : List Nat) :
    jStr (escChar c ++ rest) = (jStr rest).map fun p => (c :: p.1, p.2) := by
  simp only [okCp, Bool.or_eq_true, Bool.and_eq_true, decide_eq_true_eq] at hc
  by_cases h34 : c = 34
  · subst h34
    rw [show escChar 34 = [92, 34] from rfl]
    simp only [List.cons_append, List.nil_append]
    rw [jStr.eq_def]
    norm_num
    rw [jEsc_single 34 34 (by decide) (by decide) rest]
  by_cases h92 : c = 92
  · subst h92
    rw [show escChar 92 = [92, 92] from rfl]
    simp only [List.cons_append, List.nil_append]
    rw [jStr.eq_def]
    norm_num
    rw [jEsc_single 92 92 (by decide) (by decide) rest]
  by_cases h8 : c = 8
  · subst h8
    rw [show escChar 8 = [92, 98] from rfl]
    simp only [List.cons_append, List.nil_append]
    rw [jStr.eq_def]
    norm_num
    rw [jEsc_single 98 8 (by decide) (by decide) rest]
  by_cases h12 : c = 12
  · subst h12
    rw [show escChar 12 = [92, 102] from rfl]
    simp only [List.cons_append, List.nil_append]
    rw [jStr.eq_def]
    norm_num
    rw [jEsc_single 102 12 (by decide) (by decide) rest]
  by_cases h10 : c = 10
  · subst h10
    rw [show escChar 10 = [92, 110] from rfl]
    simp only [List.cons_append, List.nil_append]
    rw [jStr.eq_def]
    norm_num
    rw [jEsc_single 110 10 (by decide) (by decide) rest]
  by_cases h13 : c = 13
  · subst h13
    rw [show escChar 13 = [92, 114] from rfl]
    simp only [List.cons_append, List.nil_append]
    rw [jStr.eq_def]
    norm_num
    rw [jEsc_single 114 13 (by decide) (by decide) rest]
  by_cases h9 : c = 9
  · subst h9
    rw [show escChar 9 = [92, 116] from rfl]
    simp only [List.cons_append, List.nil_append]
    rw [jStr.eq_def]
    norm_num
    rw [jEsc_single 116 9 (by decide) (by decide) rest]
  by_cases hctl : c < 32
  · have hesc : escChar c = 92 :: 117 :: hex4 c := by
      simp [escChar, h34, h92, h8, h12, h10, h13, h9, hctl]
    rw [hesc]
    simp only [hex4, List.cons_append, List.nil_append]
    rw [jStr.eq_def]
    norm_num
    rw [jEsc.eq_def]
    norm_num
    rw [hex4Val_hex4 (show c < 65536 by omega), jEscU]
    rw [if_neg (show ¬(55296 ≤ c ∧ c ≤ 56319) by omega)]
  by_cases hbmp : c < 127
  · have hesc : escChar c = [c] := by
      simp [escChar, h34, h92, h8, h12, h10, h13, h9, hctl, hbmp]
    rw [hesc]
    simp only [List.cons_append, List.nil_append]
    rw [jStr_other c h34 h92 (by omega) rest]
  by_cases hlow : c < 65536
  · have hesc : escChar c = 92 :: 117 :: hex4 c := by
      simp [escChar, h34, h92, h8, h12, h10, h13, h9, hctl, hbmp, hlow]
    rw [hesc]
    simp only [hex4, List.cons_append, List.nil_append]
    rw [jStr.eq_def]
    norm_num
    rw [jEsc.eq_def]
    norm_num
    rw [hex4Val_hex4 hlow, jEscU]
    rw [if_neg (show ¬(55296 ≤ c ∧ c ≤ 56319) by omega)]
  · have hcc : c < 1114112 := by omega
    have hesc : escChar c =
        (92 :: 117 :: hex4 (55296 + (c - 65536) / 1024)) ++
          (92 :: 117 :: hex4 (56320 + (c - 65536) % 1024)) := by
      simp [escChar, h34, h92, h8, h12, h10, h13, h9, hctl, hbmp, hlow]
    rw [hesc]
    have hhi : 55296 + (c - 65536) / 1024 < 65536 := by omega
    have hlo : 56320 + (c - 65536) % 1024 < 65536 := by omega
    simp only [hex4, List.cons_append, List.nil_append, List.append_assoc]
    rw [jStr.eq_def]
    norm_num
    rw [jEsc.eq_def]
    norm_num
    rw [hex4Val_hex4 hhi, jEscU]
    rw [if_pos (show 55296 ≤ 55296 + (c - 65536) / 1024 ∧
          55296 + (c - 65536) / 1024 ≤ 56319 by omega)]
    rw [jSurr]
    rw [hex4Val_hex4 hlo, jSurrU]
    rw [if_pos (show 56320 ≤ 56320 + (c - 65536) % 1024 ∧
          56320 + (c - 65536) % 1024 ≤ 57343 by omega)]
    have hval : 65536 + (55296 + (c - 65536) / 1024 - 55296) * 1024 +
        (56320 + (c - 65536) % 1024 - 56320) = c := by omega
    rw [hval]

/-- Reading a serialized string body recovers the string and stops at the
closing quote. -/
theorem jStr_flat {s : List Nat} (h : s.all okCp = true) (rest : List Nat) :
    jStr (s.flatMap escChar ++ (34 :: rest)) = some (s, rest) := by
  induction s with
  | nil => simp [jStr]
  | cons c t ih =>
    simp only [List.all_cons, Bool.and_eq_true] at h
    rw [List.flatMap_cons, List.append_assoc, jStr_esc h.1, ih h.2]
    rfl

theorem skipWs_not_ws {c : Nat} (h : isWsB c = false) (x : List Nat) :
    skipWs (c :: x) = c :: x := by
  simp [skipWs, h]

theorem isWsB_digit {c : Nat} (h : isDigitB c = true) : isWsB c = false := by
  simp only [isDigitB, Bool.and_eq_true, decide_eq_true_eq] at h
  simp only [isWsB]
  simp only [decide_eq_true_eq, Bool.or_eq_false_iff, decide_eq_false_iff_not]
  omega

/-- Every serialized well-formed value begins with a character that is not
whitespace and closes no bracket and separates no list. -/
theorem dumpsB_head (j : Json) (hwf : wfJ j = true) :
    ∃ c t, dumpsB j = c :: t ∧ isWsB c = false ∧ ¬c = 93 ∧ ¬c = 125 ∧ ¬c = 44 := by
  cases j with
  | rawnum t => simp [wfJ] at hwf
  | null => exact ⟨110, _, rfl, by decide, by decide, by decide, by decide⟩
  | bool b =>
    cases b with
    | true => exact ⟨116, _, rfl, by decide, by decide, by decide, by decide⟩
    | false => exact ⟨102, _, rfl, by decide, by decide, by decide, by decide⟩
  | num n =>
    obtain ⟨c, t, hct, hd⟩ := natDigits_cons n
    simp only [isDigitB, Bool.and_eq_true, decide_eq_true_eq] at hd
    refine ⟨c, t, hct, ?_, by omega, by omega, by omega⟩
    simp only [isWsB, decide_eq_true_eq, Bool.or_eq_false_iff, decide_eq_false_iff_not]
    omega
  | str s => exact ⟨34, _, rfl, by decide, by decide, by decide, by decide⟩
  | arr es => exact ⟨91, _, rfl, by decide, by decide, by decide, by decide⟩
  | obj ms => exact ⟨123, _, rfl, by decide, by decide, by decide, by decide⟩

theorem skipWs_dumpsB (j : Json) (hwf : wfJ j = true) (x : List Nat) :
    skipWs (dumpsB j ++ x) = dumpsB j ++ x := by
  obtain ⟨c, t, hct, hws, _, _, _⟩ := dumpsB_head j hwf
  rw [hct, List.cons_append, skipWs_not_ws hws]

/-- A serialized value never starts with a digit unless it is a number, and in
each case the reader's dispatch lands in the matching branch; this lemma
handles the numeric branch. -/
theorem jVal_toNum (f : Nat) (c0 : Nat) (t : List Nat) (hd : isDigitB c0 = true) :
    jVal (f + 1) (c0 :: t) = jNumFull (c0 :: t) := by
  have hb : 48 ≤ c0 ∧ c0 ≤ 57 := by
    simpa [isDigitB] using hd
  rw [jVal.eq_def]
  simp only [skipWs_not_ws (isWsB_digit hd)]
  simp only [if_neg (show ¬c0 = 110 by omega), if_neg (show ¬c0 = 116 by omega),
    if_neg (show ¬c0 = 102 by omega), if_neg (show ¬c0 = 34 by omega),
    if_neg (show ¬c0 = 91 by omega), if_neg (show ¬c0 = 123 by omega), hd,
    if_pos trivial]

theorem noDig_cons (c : Nat) (x : List Nat) :
    noDig (c :: x) = !(isDigitB c || c = 46 || c = 101 || c = 69) := rfl

/-- Dispatch of the reader on `[` when the array is nonempty: the first
element's serialization never starts with `]`. -/
theorem jVal_toArr (f : Nat) (c : Nat) (t : List Nat) (hws : isWsB c = false)
    (h93 : ¬c = 93) :
    jVal (f + 1) (91 :: c :: t) = (jElems f (c :: t)).map fun p => (.arr p.1, p.2) := by
  rw [jVal.eq_def]
  simp only [skipWs_not_ws (by decide : isWsB 91 = false)]
  simp only [if_neg (by decide : ¬(91:Nat) = 110), if_neg (by decide : ¬(91:Nat) = 116),
    if_neg (by decide : ¬(91:Nat) = 102), if_neg (by decide : ¬(91:Nat) = 34),
    if_pos rfl, if_pos trivial]
  simp only [skipWs_not_ws hws]
  simp only [if_neg h93]

/-- Dispatch of the reader on `{` when the object is nonempty: the first
member starts with a key's opening quote. -/
theorem jVal_toObj (f : Nat) (y : List Nat) :
    jVal (f + 1) (123 :: 34 :: y) = (jMembs f (34 :: y)).map fun p => (.obj p.1, p.2) := by
  rw [jVal.eq_def]
  simp only [skipWs_not_ws (by decide : isWsB 123 = false)]
  simp only [if_neg (by decide : ¬(123:Nat) = 110), if_neg (by decide : ¬(123:Nat) = 116),
    if_neg (by decide : ¬(123:Nat) = 102), if_neg (by decide : ¬(123:Nat) = 34),
    if_neg (by decide : ¬(123:Nat) = 91), if_pos rfl, if_pos trivial]
  simp only [skipWs_not_ws (by decide : isWsB 34 = false)]
  simp only [if_neg (by decide : ¬(34:Nat) = 125)]

mutual

/-- Reading a serialized well-formed value recovers it, for any fuel above the
output's length and any remainder that cannot extend a number. -/
theorem rt_val : ∀ (j : Json) (fuel : Nat) (rest : List Nat),
    wfJ j = true → (dumpsB j).length < fuel → noDig rest = true →
    jVal fuel (dumpsB j ++ rest) = some (j, rest)
  | .null, fuel, rest, _, hf, _ => by
    cases fuel with
    | zero => simp [dumpsB] at hf
    | succ f => simp [dumpsB, jVal, skipWs, isWsB]
  | .bool b, fuel, rest, _, hf, _ => by
    cases fuel with
    | zero => cases b <;> simp [dumpsB] at hf
    | succ f => cases b <;> simp [dumpsB, jVal, skipWs, isWsB]
  | .num n, fuel, rest, _, hf, hr => by
    cases fuel with
    | zero => exact absurd hf (Nat.not_lt_zero _)
    | succ f =>
      obtain ⟨c0, t0, hct, hd⟩ := natDigits_cons n
      simp only [dumpsB]
      rw [hct, List.cons_append, jVal_toNum f c0 (t0 ++ rest) hd, ← List.cons_append,
        ← hct, jNumFull_natDigits n hr]
  | .rawnum t, fuel, rest, hwf, hf, hr => by
    simp [wfJ] at hwf
  | .str s, fuel, rest, hwf, hf, _ => by
    cases fuel with
    | zero => exact absurd hf (Nat.not_lt_zero _)
    | succ f =>
      have hb : dumpsB (.str s) ++ rest
          = 34 :: (s.flatMap escChar ++ (34 :: rest)) := by
        simp [dumpsB, dumpStr]
      rw [hb, jVal.eq_def]
      simp only [skipWs_not_ws (by decide : isWsB 34 = false)]
      simp only [if_neg (by decide : ¬(34:Nat) = 110), if_neg (by decide : ¬(34:Nat) = 116),
        if_neg (by decide : ¬(34:Nat) = 102), if_pos rfl]
      rw [jStr_flat (by simpa [wfJ] using hwf) rest]
      rfl
  | .arr [], fuel, rest, _, hf, _ => by
    cases fuel with
    | zero => exact absurd hf (Nat.not_lt_zero _)
    | succ f => simp [dumpsB, dumpElems, jVal, skipWs, isWsB]
  | .arr (e :: es), fuel, rest, hwf, hf, _ => by
    cases fuel with
    | zero => exact absurd hf (Nat.not_lt_zero _)
    | succ f =>
      have hwfe : wfJ e = true := by
        have h2 : wfArr (e :: es) = true := by simpa [wfJ] using hwf
        simp only [wfArr, Bool.and_eq_true] at h2
        exact h2.1
      obtain ⟨c, t, hct, hws, h93, _, _⟩ := dumpsB_head e hwfe
      have hshape : dumpsB (.arr (e :: es)) ++ rest
          = 91 :: (c :: (t ++ (dumpElemSep es ++ (93 :: rest)))) := by
        simp [dumpsB, dumpElems, hct]
      rw [hshape, jVal_toArr f c _ hws h93]
      have hback : c :: (t ++ (dumpElemSep es ++ (93 :: rest)))
          = dumpElems (e :: es) ++ (93 :: rest) := by
        simp [dumpElems, hct]
      rw [hback]
      have hlen : (dumpElems (e :: es)).length + 1 < f := by
        have : (dumpsB (.arr (e :: es))).length = (dumpElems (e :: es)).length + 2 := by
          simp [dumpsB]
        omega
      rw [rt_elems e es f rest (by simpa [wfJ] using hwf) hlen]
      rfl
  | .obj [], fuel, rest, _, hf, _ => by
    cases fuel with
    | zero => exact absurd hf (Nat.not_lt_zero _)
    | succ f => simp [dumpsB, dumpMembs, jVal, skipWs, isWsB]
  | .obj ((k, v) :: ms), fuel, rest, hwf, hf, _ => by
    cases fuel with
    | zero => exact absurd hf (Nat.not_lt_zero _)
    | succ f =>
      have hshape : dumpsB (.obj ((k, v) :: ms)) ++ rest
          = 123 :: 34 :: (k.flatMap escChar ++
              (34 :: (58 :: (dumpsB v ++ (dumpMembSep ms ++ (125 :: rest)))))) := by
        simp [dumpsB, dumpMembs, dumpStr]
      rw [hshape, jVal_toObj f _]
      have hback : (34 : Nat) :: (k.flatMap escChar ++
            (34 :: (58 :: (dumpsB v ++ (dumpMembSep ms ++ (125 :: rest))))))
          = dumpMembs ((k, v) :: ms) ++ (125 :: rest) := by
        simp [dumpMembs, dumpStr]
      rw [hback]
      have hlen : (dumpMembs ((k, v) :: ms)).length + 1 < f := by
        have : (dumpsB (.obj ((k, v) :: ms))).length
            = (dumpMembs ((k, v) :: ms)).length + 2 := by
          simp [dumpsB]
        omega
      rw [rt_membs (k, v) ms f rest hwf hlen]
      rfl

/-- Reading serialized nonempty array elements up to the closing bracket. -/
theorem rt_elems : ∀ (e : Json) (es : List Json) (fuel : Nat) (rest : List Nat),
    wfArr (e :: es) = true → (dumpElems (e :: es)).length + 1 < fuel →
    jElems fuel (dumpElems (e :: es) ++ (93 :: rest)) = some (e :: es, rest)
  | e, [], fuel, rest, hwf, hf => by
    cases fuel with
    | zero => exact absurd hf (Nat.not_lt_zero _)
    | succ f =>
      simp only [wfArr, Bool.and_eq_true] at hwf
      have hlen : (dumpsB e).length < f := by
        have : (dumpElems [e]).length = (dumpsB e).length := by
          simp [dumpElems, dumpElemSep]
        omega
      have hshape : dumpElems [e] ++ (93 :: rest) = dumpsB e ++ (93 :: rest) := by
        simp [dumpElems, dumpElemSep]
      rw [hshape, jElems]
      rw [rt_val e f (93 :: rest) hwf.1 hlen rfl]
      simp only [skipWs_not_ws (by decide : isWsB 93 = false)]
      simp only [if_neg (by decide : ¬(93:Nat) = 44), if_pos rfl, if_pos trivial]
  | e, x :: xs, fuel, rest, hwf, hf => by
    cases fuel with
    | zero => exact absurd hf (Nat.not_lt_zero _)
    | succ f =>
      simp only [wfArr, Bool.and_eq_true] at hwf
      have hlens : (dumpElems (e :: x :: xs)).length
          = (dumpsB e).length + 1 + (dumpElems (x :: xs)).length := by
        simp [dumpElems, dumpElemSep]
        omega
      have hlen1 : (dumpsB e).length < f := by omega
      have hlen2 : (dumpElems (x :: xs)).length + 1 < f := by omega
      have hshape : dumpElems (e :: x :: xs) ++ (93 :: rest)
          = dumpsB e ++ (44 :: (dumpElems (x :: xs) ++ (93 :: rest))) := by
        simp [dumpElems, dumpElemSep]
      rw [hshape, jElems]
      rw [rt_val e f (44 :: (dumpElems (x :: xs) ++ (93 :: rest))) hwf.1 hlen1 rfl]
      simp only [skipWs_not_ws (by decide : isWsB 44 = false)]
      simp only [if_pos rfl, if_pos trivial]
      rw [rt_elems x xs f rest (by simp [wfArr, hwf.2.1, hwf.2.2]) hlen2]
      rfl

/-- Reading serialized nonempty object members up to the closing brace. -/
theorem rt_membs : ∀ (kv : List Nat × Json) (ms : List (List Nat × Json))
    (fuel : Nat) (rest : List Nat),
    wfMembs (kv :: ms) = true → (dumpMembs (kv :: ms)).length + 1 < fuel →
    jMembs fuel (dumpMembs (kv :: ms) ++ (125 :: rest)) = some (kv :: ms, rest)
  | (k, v), [], fuel, rest, hwf, hf => by
    cases fuel with
    | zero => exact absurd hf (Nat.not_lt_zero _)
    | succ f =>
      simp only [wfMembs, Bool.and_eq_true] at hwf
      have hlenv : (dumpsB v).length < f := by
        have : (dumpMembs [(k, v)]).length
            = (dumpStr k).length + 1 + (dumpsB v).length := by
          simp [dumpMembs, dumpMembSep]
          omega
        have hk : 0 < (dumpStr k).length := by simp [dumpStr]
        omega
      have hshape : dumpMembs [(k, v)] ++ (125 :: rest)
          = 34 :: (k.flatMap escChar ++ (34 :: (58 :: (dumpsB v ++ (125 :: rest))))) := by
        simp [dumpMembs, dumpMembSep, dumpStr]
      rw [hshape, jMembs]
      simp only [skipWs_not_ws (by decide : isWsB 34 = false)]
      simp only [if_pos rfl, if_pos trivial]
      rw [jStr_flat hwf.1.1.1 _]
      simp only [skipWs_not_ws (by decide : isWsB 58 = false)]
      simp only [if_pos rfl, if_pos trivial]
      rw [rt_val v f (125 :: rest) hwf.1.1.2 hlenv rfl]
      simp only [skipWs_not_ws (by decide : isWsB 125 = false)]
      simp only [if_neg (by decide : ¬(125:Nat) = 44), if_pos rfl, if_pos trivial]
  | (k, v), (k2, v2) :: ms2, fuel, rest, hwf, hf => by
    cases fuel with
    | zero => exact absurd hf (Nat.not_lt_zero _)
    | succ f =>
      simp only [wfMembs, Bool.and_eq_true] at hwf
      have hlens : (dumpMembs ((k, v) :: (k2, v2) :: ms2)).length
          = (dumpStr k).length + 1 + (dumpsB v).length + 1
            + (dumpMembs ((k2, v2) :: ms2)).length := by
        simp [dumpMembs, dumpMembSep]
        omega
      have hk : 0 < (dumpStr k).length := by simp [dumpStr]
      have hlenv : (dumpsB v).length < f := by omega
      have hlen2 : (dumpMembs ((k2, v2) :: ms2)).length + 1 < f := by omega
      have hshape : dumpMembs ((k, v) :: (k2, v2) :: ms2) ++ (125 :: rest)
          = 34 :: (k.flatMap escChar ++ (34 :: (58 :: (dumpsB v ++
              (44 :: (dumpMembs ((k2, v2) :: ms2) ++ (125 :: rest))))))) := by
        simp [dumpMembs, dumpMembSep, dumpStr]
      rw [hshape, jMembs]
      simp only [skipWs_not_ws (by decide : isWsB 34 = false)]
      simp only [if_pos rfl, if_pos trivial]
      rw [jStr_flat hwf.1.1.1 _]
      simp only [skipWs_not_ws (by decide : isWsB 58 = false)]
      simp only [if_pos rfl, if_pos trivial]
      rw [rt_val v f (44 :: (dumpMembs ((k2, v2) :: ms2) ++ (125 :: rest)))
        hwf.1.1.2 hlenv rfl]
      simp only [skipWs_not_ws (by decide : isWsB 44 = false)]
      simp only [if_pos rfl, if_pos trivial]
      rw [rt_membs (k2, v2) ms2 f rest (by
        simp only [wfMembs, Bool.and_eq_true]
        exact hwf.2) hlen2]
      rfl

end

theorem hasKey_false_iff (ms : List (List Nat × Json)) (k : List Nat) :
    hasKey ms k = false ↔ ∀ p ∈ ms, ¬p.1 = k := by
  simp [hasKey, List.any_eq_true]

theorem hasKey_append (a b : List (List Nat × Json)) (k : List Nat) :
    hasKey (a ++ b) k = (hasKey a k || hasKey b k) := by
  simp [hasKey, List.any_append]

theorem setKey_absent {ms : List (List Nat × Json)} {k : List Nat}
    (h : hasKey ms k = false) (v : Json) : setKey ms k v = ms ++ [(k, v)] := by
  simp [setKey, h]

/-- `keysOk`: pairwise distinct keys (the part of `wfMembs` that dict
collapsing needs). -/
def keysOk : List (List Nat × Json) → Bool
  | [] => true
  | (k, _) :: ms => !hasKey ms k && keysOk ms

theorem keysOk_of_wfMembs : ∀ {ms : List (List Nat × Json)},
    wfMembs ms = true → keysOk ms = true
  | [], _ => rfl
  | (k, v) :: ms, h => by
    simp only [wfMembs, Bool.and_eq_true] at h
    simp only [keysOk, Bool.and_eq_true]
    exact ⟨h.1.2, keysOk_of_wfMembs h.2⟩

theorem foldl_setKey_distinct :
    ∀ (ms d : List (List Nat × Json)), keysOk ms = true →
      (∀ p ∈ ms, hasKey d p.1 = false) →
      List.foldl (fun d p => setKey d p.1 p.2) d ms = d ++ ms
  | [], d, _, _ => by simp
  | (k, v) :: ms, d, hok, hd => by
    simp only [keysOk, Bool.and_eq_true, Bool.not_eq_true'] at hok
    simp only [List.foldl_cons]
    rw [setKey_absent (hd (k, v) (by simp)) v]
    rw [foldl_setKey_distinct ms (d ++ [(k, v)]) hok.2 ?_]
    · simp
    · intro p hp
      rw [hasKey_append]
      have h1 : hasKey d p.1 = false := hd p (by simp [hp])
      have h2 : hasKey [(k, v)] p.1 = false := by
        have := (hasKey_false_iff ms k).1 hok.1 p hp
        simp [hasKey]
        intro he
        exact absurd he.symm this
      simp [h1, h2]

theorem collapseKeys_distinct {ms : List (List Nat × Json)}
    (h : keysOk ms = true) : collapseKeys ms = ms := by
  have := foldl_setKey_distinct ms [] h (by intro p _; rfl)
  simpa [collapseKeys] using this

mutual

/-- Dict collapsing is the identity on already well-formed values. -/
theorem ddup_wf : ∀ j : Json, wfJ j = true → ddup j = j
  | .null, _ => rfl
  | .bool b, _ => rfl
  | .num n, _ => rfl
  | .rawnum t, _ => rfl
  | .str s, _ => rfl
  | .arr es, h => by
    simp only [ddup]
    rw [ddupArr_wf es (by simpa [wfJ] using h)]
  | .obj ms, h => by
    simp only [ddup]
    rw [ddupMembs_wf ms (by simpa [wfJ] using h)]
    rw [collapseKeys_distinct (keysOk_of_wfMembs (by simpa [wfJ] using h))]

theorem ddupArr_wf : ∀ es : List Json, wfArr es = true → ddupArr es = es
  | [], _ => rfl
  | e :: es, h => by
    simp only [wfArr, Bool.and_eq_true] at h
    simp only [ddupArr]
    rw [ddup_wf e h.1, ddupArr_wf es h.2]

theorem ddupMembs_wf : ∀ ms : List (List Nat × Json), wfMembs ms = true →
    ddupMembs ms = ms
  | [], _ => rfl
  | (k, v) :: ms, h => by
    simp only [wfMembs, Bool.and_eq_true] at h
    simp only [ddupMembs]
    rw [ddup_wf v h.1.1.2, ddupMembs_wf ms h.2]

end

/-- Reading back a serialized well-formed value as `json.loads` does (full
input consumed) recovers it. -/
theorem rawLoads_dumpsB {j : Json} (h : wfJ j = true) : rawLoads (dumpsB j) = some j := by
  have h1 : jVal ((dumpsB j).length + 1) (dumpsB j ++ []) = some (j, []) :=
    rt_val j _ [] h (by omega) rfl
  rw [List.append_nil] at h1
  simp [rawLoads, h1, skipWs, ddup_wf j h]

theorem hexDig_lt128 (d : Nat) (h : d < 16) : hexDig d < 128 := by
  unfold hexDig
  split <;> omega

theorem hex4_ascii (n : Nat) : ∀ x ∈ hex4 n, x < 128 := by
  intro x hx
  simp only [hex4, List.mem_cons, List.mem_singleton, List.not_mem_nil, or_false] at hx
  rcases hx with rfl | rfl | rfl | rfl <;>
    exact hexDig_lt128 _ (Nat.mod_lt _ (by omega))

theorem escChar_ascii (c : Nat) : ∀ x ∈ escChar c, x < 128 := by
  by_cases h34 : c = 34
  · subst h34; decide
  by_cases h92 : c = 92
  · subst h92; decide
  by_cases h8 : c = 8
  · subst h8; decide
  by_cases h12 : c = 12
  · subst h12; decide
  by_cases h10 : c = 10
  · subst h10; decide
  by_cases h13 : c = 13
  · subst h13; decide
  by_cases h9 : c = 9
  · subst h9; decide
  by_cases hctl : c < 32
  · have hesc : escChar c = 92 :: 117 :: hex4 c := by
      simp [escChar, h34, h92, h8, h12, h10, h13, h9, hctl]
    rw [hesc]
    intro x hx
    simp only [List.mem_cons] at hx
    rcases hx with rfl | rfl | hx
    · omega
    · omega
    · exact hex4_ascii c x hx
  by_cases hbmp : c < 127
  · have hesc : escChar c = [c] := by
      simp [escChar, h34, h92, h8, h12, h10, h13, h9, hctl, hbmp]
    rw [hesc]
    intro x hx
    simp only [List.mem_singleton] at hx
    omega
  by_cases hlow : c < 65536
  · have hesc : escChar c = 92 :: 117 :: hex4 c := by
      simp [escChar, h34, h92, h8, h12, h10, h13, h9, hctl, hbmp, hlow]
    rw [hesc]
    intro x hx
    simp only [List.mem_cons] at hx
    rcases hx with rfl | rfl | hx
    · omega
    · omega
    · exact hex4_ascii c x hx
  · have hesc : escChar c =
        (92 :: 117 :: hex4 (55296 + (c - 65536) / 1024)) ++
          (92 :: 117 :: hex4 (56320 + (c - 65536) % 1024)) := by
      simp [escChar, h34, h92, h8, h12, h10, h13, h9, hctl, hbmp, hlow]
    rw [hesc]
    intro x hx
    simp only [List.cons_append, List.mem_cons, List.mem_append] at hx
    rcases hx with rfl | rfl | hx | rfl | rfl | hx
    · omega
    · omega
    · exact hex4_ascii _ x hx
    · omega
    · omega
    · exact hex4_ascii _ x hx

theorem dumpStr_ascii (s : List Nat) : ∀ x ∈ dumpStr s, x < 128 := by
  intro x hx
  simp only [dumpStr, List.mem_cons, List.mem_append, List.mem_singleton,
    List.not_mem_nil, or_false] at hx
  rcases hx with rfl | hx | rfl
  · omega
  · obtain ⟨c, _, hc⟩ := List.mem_flatMap.1 hx
    exact escChar_ascii c x hc
  · omega

theorem natDigits_ascii (n : Nat) : ∀ x ∈ natDigits n, x < 128 := by
  intro x hx
  have := natDigits_digit n x hx
  simp only [isDigitB, Bool.and_eq_true, decide_eq_true_eq] at this
  omega

mutual

/-- Serialized output of a well-formed value is pure ASCII (`ensure_ascii`),
so the UTF-8 encoding step of the sources is the identity on it. -/
theorem dumpsB_ascii : ∀ j : Json, wfJ j = true → ∀ x ∈ dumpsB j, x < 128
  | .null, _ => by intro x hx; simp [dumpsB] at hx; omega
  | .bool b, _ => by cases b <;> (intro x hx; simp [dumpsB] at hx; omega)
  | .num n, _ => by intro x hx; exact natDigits_ascii n x hx
  | .rawnum t, h => by simp [wfJ] at h
  | .str s, _ => by intro x hx; exact dumpStr_ascii s x hx
  | .arr es, h => by
    intro x hx
    simp only [dumpsB, List.mem_cons, List.mem_append, List.mem_singleton,
      List.not_mem_nil, or_false] at hx
    rcases hx with rfl | hx | rfl
    · omega
    · exact dumpElems_ascii es (by simpa [wfJ] using h) x hx
    · omega
  | .obj ms, h => by
    intro x hx
    simp only [dumpsB, List.mem_cons, List.mem_append, List.mem_singleton,
      List.not_mem_nil, or_false] at hx
    rcases hx with rfl | hx | rfl
    · omega
    · exact dumpMembs_ascii ms (by simpa [wfJ] using h) x hx
    · omega

theorem dumpElems_ascii : ∀ es : List Json, wfArr es = true → ∀ x ∈ dumpElems es, x < 128
  | [], _ => by intro x hx; simp [dumpElems] at hx
  | e :: es, h => by
    simp only [wfArr, Bool.and_eq_true] at h
    intro x hx
    simp only [dumpElems, List.mem_append] at hx
    rcases hx with hx | hx
    · exact dumpsB_ascii e h.1 x hx
    · exact dumpElemSep_ascii es h.2 x hx

theorem dumpElemSep_ascii : ∀ es : List Json, wfArr es = true → ∀ x ∈ dumpElemSep es, x < 128
  | [], _ => by intro x hx; simp [dumpElemSep] at hx
  | e :: es, h => by
    simp only [wfArr, Bool.and_eq_true] at h
    intro x hx
    simp only [dumpElemSep, List.mem_cons, List.mem_append] at hx
    rcases hx with rfl | hx | hx
    · omega
    · exact dumpsB_ascii e h.1 x hx
    · exact dumpElemSep_ascii es h.2 x hx

theorem dumpMembs_ascii : ∀ ms : List (List Nat × Json), wfMembs ms = true →
    ∀ x ∈ dumpMembs ms, x < 128
  | [], _ => by intro x hx; simp [dumpMembs] at hx
  | (k, v) :: ms, h => by
    simp only [wfMembs, Bool.and_eq_true] at h
    intro x hx
    simp only [dumpMembs, List.mem_append, List.mem_cons] at hx
    rcases hx with hx | rfl | hx | hx
    · exact dumpStr_ascii k x hx
    · omega
    · exact dumpsB_ascii v h.1.1.2 x hx
    · exact dumpMembSep_ascii ms h.2 x hx

theorem dumpMembSep_ascii : ∀ ms : List (List Nat × Json), wfMembs ms = true →
    ∀ x ∈ dumpMembSep ms, x < 128
  | [], _ => by intro x hx; simp [dumpMembSep] at hx
  | (k, v) :: ms, h => by
    simp only [wfMembs, Bool.and_eq_true] at h
    intro x hx
    simp only [dumpMembSep, List.mem_cons, List.mem_append] at hx
    rcases hx with rfl | hx | rfl | hx | hx
    · omega
    · exact dumpStr_ascii k x hx
    · omega
    · exact dumpsB_ascii v h.1.1.2 x hx
    · exact dumpMembSep_ascii ms h.2 x hx

end

theorem utf8Decode_ascii : ∀ {l : List Nat}, (∀ b ∈ l, b < 128) → utf8Decode l = some l
  | [], _ => by rw [utf8Decode]
  | b :: bs, h => by
    have hb : b < 128 := h b (by simp)
    rw [utf8Decode.eq_def]
    simp only [if_pos hb]
    rw [utf8Decode_ascii fun x hx => h x (by simp [hx])]
    rfl

/-- Reading serialized bytes back through UTF-8 decoding and `json.loads`
recovers the value. -/
theorem loadsBytes_dumpsB {j : Json} (h : wfJ j = true) :
    loadsBytes (dumpsB j) = some j := by
  rw [loadsBytes, utf8Decode_ascii (dumpsB_ascii j h)]
  simp [rawLoads_dumpsB h]

/-- Truncation to a 32-bit word. -/
def w32 (n : Nat) : Nat := n % 4294967296

/-- Right rotation of a 32-bit word by `n`. -/
def rotr (n x : Nat) : Nat := (x >>> n) ||| w32 (x <<< (32 - n))

/-- Bitwise complement of a 32-bit word. -/
def notW (x : Nat) : Nat := 4294967295 ^^^ x

/-- SHA-256 choose function. -/
def chW (e f g : Nat) : Nat := (e &&& f) ^^^ (notW e &&& g)

/-- SHA-256 majority function. -/
def majW (a b c : Nat) : Nat := (a &&& b) ^^^ (a &&& c) ^^^ (b &&& c)

/-- SHA-256 big sigma-0. -/
def bsig0 (x : Nat) : Nat := rotr 2 x ^^^ rotr 13 x ^^^ rotr 22 x

/-- SHA-256 big sigma-1. -/
def bsig1 (x : Nat) : Nat := rotr 6 x ^^^ rotr 11 x ^^^ rotr 25 x

/-- SHA-256 small sigma-0. -/
def ssig0 (x : Nat) : Nat := rotr 7 x ^^^ rotr 18 x ^^^ (x >>> 3)

/-- SHA-256 small sigma-1. -/
def ssig1 (x : Nat) : Nat := rotr 17 x ^^^ rotr 19 x ^^^ (x >>> 10)

/-- The 64 SHA-256 round constants. -/
def K64 : List Nat :=
  [1116352408, 1899447441, 3049323471, 3921009573, 961987163, 1508970993,
   2453635748, 2870763221, 3624381080, 310598401, 607225278, 1426881987,
   1925078388, 2162078206, 2614888103, 3248222580, 3835390401, 4022224774,
   264347078, 604807628, 770255983, 1249150122, 1555081692, 1996064986,
   2554220882, 2821834349, 2952996808, 3210313671, 3336571891, 3584528711,
   113926993, 338241895, 666307205, 773529912, 1294757372, 1396182291,
   1695183700, 1986661051, 2177026350, 2456956037, 2730485921, 2820302411,
   3259730800, 3345764771, 3516065817, 3600352804, 4094571909, 275423344,
   430227734, 506948616, 659060556, 883997877, 958139571, 1322822218,
   1537002063, 1747873779, 1955562222, 2024104815, 2227730452, 2361852424,
   2428436474, 2756734187, 3204031479, 3329325298]

/-- Working state of the SHA-256 compression function. -/
structure Hs where
  a : Nat
  b : Nat
  c : Nat
  d : Nat
  e : Nat
  f : Nat
  g : Nat
  h : Nat
deriving DecidableEq, Repr

/-- The SHA-256 initial hash value. -/
def H0 : Hs :=
  ⟨1779033703, 3144134277, 1013904242, 2773480762,
   1359893119, 2600822924, 528734635, 1541459225⟩

/-- Big-endian byte encoding of `n` on `k` bytes. -/
def beBytes : Nat → Nat → List Nat
  | 0, _ => []
  | k + 1, n => beBytes k (n / 256) ++ [n % 256]

theorem beBytes_length (k n : Nat) : (beBytes k n).length = k := by
  induction k generalizing n with
  | zero => rfl
  | succ k ih => simp [beBytes, ih]

/-- SHA-256 message padding: `0x80`, zeros to 56 mod 64, then the 64-bit
big-endian bit length. -/
def padMsg (msg : List Nat) : List Nat :=
  msg ++ 128 :: List.replicate ((119 - msg.length % 64) % 64) 0
    ++ beBytes 8 (8 * msg.length)

/-- Split into 64-byte chunks. -/
def chunks64 (l : List Nat) : List (List Nat) :=
  if l = [] then [] else l.take 64 :: chunks64 (l.drop 64)
termination_by l.length
decreasing_by
  simp only [List.length_drop]
  have hne : l ≠ [] := by assumption
  have hpos : 0 < l.length := List.length_pos.2 hne
  omega

/-- Big-endian 32-bit word of four bytes. -/
def beWord (a b c d : Nat) : Nat := ((a * 256 + b) * 256 + c) * 256 + d

/-- The sixteen 32-bit words of a 64-byte chunk. -/
def chunkWords : List Nat → List Nat
  | a :: b :: c :: d :: rest => beWord a b c d :: chunkWords rest
  | _ => []

/-- Extend the message schedule by `k` further words. -/
def extendW : Nat → List Nat → List Nat
  | 0, w => w
  | k + 1, w =>
    let i := w.length
    extendW k (w ++ [w32 (ssig1 (w.getD (i - 2) 0) + w.getD (i - 7) 0
      + ssig0 (w.getD (i - 15) 0) + w.getD (i - 16) 0)])

/-- One SHA-256 round, fed a round constant and a schedule word. -/
def round1 (s : Hs) (kw : Nat × Nat) : Hs :=
  let t1 := w32 (s.h + bsig1 s.e + chW s.e s.f s.g + kw.1 + kw.2)
  let t2 := w32 (bsig0 s.a + majW s.a s.b s.c)
  ⟨w32 (t1 + t2), s.a, s.b, s.c, w32 (s.d + t1), s.e, s.f, s.g⟩

/-- Process one 64-byte chunk. -/
def processChunk (s : Hs) (chunk : List Nat) : Hs :=
  let w := extendW 48 (chunkWords chunk)
  let t := (K64.zip w).foldl round1 s
  ⟨w32 (s.a + t.a), w32 (s.b + t.b), w32 (s.c + t.c), w32 (s.d + t.d),
   w32 (s.e + t.e), w32 (s.f + t.f), w32 (s.g + t.g), w32 (s.h + t.h)⟩

/-- SHA-256 digest (32 bytes) of a byte list, as `hashlib.sha256(data).digest()`. -/
def sha256 (msg : List Nat) : List Nat :=
  let fin := (chunks64 (padMsg msg)).foldl processChunk H0
  beBytes 4 fin.a ++ beBytes 4 fin.b ++ beBytes 4 fin.c ++ beBytes 4 fin.d
    ++ beBytes 4 fin.e ++ beBytes 4 fin.f ++ beBytes 4 fin.g ++ beBytes 4 fin.h

/-- Lowercase hex string (as code points) of a byte list, as `.hexdigest()`. -/
def toHexStr (bytes : List Nat) : List Nat :=
  bytes.flatMap fun b => [hexDig (b / 16 % 16), hexDig (b % 16)]

theorem sha256_length (msg : List Nat) : (sha256 msg).length = 32 := by
  simp [sha256, beBytes_length]

theorem toHexStr_length (bytes : List Nat) : (toHexStr bytes).length = 2 * bytes.length := by
  induction bytes with
  | nil => rfl
  | cons b t ih => simp [toHexStr] at ih ⊢; omega

/-- The reserved header key `"__metadata__"`. -/
def metaKey : List Nat := asc "__metadata__"

/-- The integrity metadata key `"modelspec.hash_sha256"`. -/
def hashKey : List Nat := asc "modelspec.hash_sha256"

/-- Payload byte range of a safetensors file: everything after the 8-byte
length prefix and the declared header length. -/
def payloadBytes (file : List Nat) : List Nat :=
  file.drop (8 + leVal (file.take 8))

/-- Model of `SafetensorService.read_metadata` (and of the identical
`read_safetensors_metadata`): read the 8-byte little-endian header length,
read that many header bytes, parse them as UTF-8 JSON, and return the
`"__metadata__"` entry (default empty object).  Every raised exception —
short file, truncated header, bad UTF-8 or JSON, `.get` on a non-object —
is re-raised as `ValueError`, modelled by `.error ()`. -/
def read_metadata (file : List Nat) : Except Unit Json :=
  let header_len_bytes := file.take 8
  if header_len_bytes.length ≠ 8 then .error ()
  else
    let header_len := leVal header_len_bytes
    let header_bytes := (file.drop 8).take header_len
    if header_bytes.length ≠ header_len then .error ()
    else
      match loadsBytes header_bytes with
      | some (Json.obj fields) => .ok ((getKey fields metaKey).getD (Json.obj []))
      | _ => .error ()

/-- A flat string-to-string metadata edit, as JSON string values. -/
def strEdit (edit : List (List Nat × List Nat)) : List (List Nat × Json) :=
  edit.map fun p => (p.1, Json.str p.2)

/-- Header-read and merge steps of `metadata.py update_metadata` (everything
before the temp file is opened): decode the header, default `__metadata__` to
an empty object, and `dict.update` it with the edit.  `none` models any
exception on this stretch (invalid header, or `.update` on a non-object). -/
def decodeAndMerge (file : List Nat) (edit : List (List Nat × List Nat)) :
    Option Json :=
  if (file.take 8).length ≠ 8 then none
  else
    let header_len := leVal (file.take 8)
    let header_bytes := (file.drop 8).take header_len
    if header_bytes.length ≠ header_len then none
    else
      match loadsBytes header_bytes with
      | some (Json.obj fields) =>
        let h1 := if (getKey fields metaKey).isNone
          then setKey fields metaKey (Json.obj []) else fields
        match getKey h1 metaKey with
        | some (Json.obj m) =>
          some (Json.obj (setKey h1 metaKey
            (Json.obj (merge_metadata m (strEdit edit)))))
        | _ => none
      | _ => none

/-- The fast path's 32 MiB copy chunk. -/
def chunkSize : Nat := 33554432

/-- The fast path's chunked payload copy: returns the bytes written and the
progress percentages reported.  Progress is
`int(copied / total * 100 / 2) * 2`, reported when it changed, is even and
positive (`last` starts at `-1`); the float arithmetic of the source is
modelled exactly by natural floor division. -/
def copyLoop (payload : List Nat) (copied total : Nat) (last : Int) :
    List Nat × List Nat :=
  if payload = [] then ([], [])
  else
    let chunk := payload.take chunkSize
    let rest := payload.drop chunkSize
    let copied1 := copied + chunk.length
    if 0 < total then
      let pi := copied1 * 100 / total / 2 * 2
      if (pi : Int) ≠ last ∧ pi % 2 = 0 ∧ 0 < pi then
        let p := copyLoop rest copied1 total (pi : Int)
        (chunk ++ p.1, pi :: p.2)
      else
        let p := copyLoop rest copied1 total last
        (chunk ++ p.1, p.2)
    else
      let p := copyLoop rest copied1 total last
      (chunk ++ p.1, p.2)
termination_by payload.length
decreasing_by
  all_goals
    (have hne : payload ≠ [] := by assumption
     have hpos : 0 < payload.length := List.length_pos.2 hne
     have hcs : chunkSize = 33554432 := rfl
     simp only [List.length_drop]
     omega)

/-- Model of `metadata.py update_metadata` (the fast path): decode and merge
the header, serialize it compactly, write the 8-byte little-endian length,
the header bytes and the streamed payload to the temp file.  Returns the
temp file's bytes and the reported copy percentages, or `none` when any
exception makes the function return `False`. -/
def update_metadata (file : List Nat) (edit : List (List Nat × List Nat)) :
    Option (List Nat × List Nat) :=
  match decodeAndMerge file edit with
  | none => none
  | some h2 =>
    let new_header_bytes := dumpsB h2
    let new_header_len := new_header_bytes.length
    if 18446744073709551616 ≤ new_header_len then none
    else
      let tensor_data_start := 8 + leVal (file.take 8)
      let file_size_remaining := file.length - tensor_data_start
      let p := copyLoop (file.drop tensor_data_start) 0 file_size_remaining (-1)
      some (leBytes 8 new_header_len ++ new_header_bytes ++ p.1, p.2)

/-- The service write path's 1 MiB copy chunk. -/
def serviceChunk : Nat := 1048576

/-- The service write path's copy loop reports: one callback per chunk
whenever the file is nonempty, `min(int(copied / denominator * 100), 100)`
with `100` substituted when the denominator is not positive. -/
def serviceLoop (payload : List Nat) (copied totalSize denom : Nat) : List Nat :=
  if payload = [] then []
  else
    let chunk := payload.take serviceChunk
    let rest := payload.drop serviceChunk
    let copied1 := copied + chunk.length
    if 0 < totalSize then
      (if 0 < denom then min (copied1 * 100 / denom) 100 else 100)
        :: serviceLoop rest copied1 totalSize denom
    else serviceLoop rest copied1 totalSize denom
termination_by payload.length
decreasing_by
  all_goals
    (have hne : payload ≠ [] := by assumption
     have hpos : 0 < payload.length := List.length_pos.2 hne
     have hcs : serviceChunk = 1048576 := rfl
     simp only [List.length_drop]
     omega)

/-- Model of `SafetensorService.write_metadata`, pure part (temp-file bytes):
read the header (the source checks only the 8-byte prefix, not that the
header was fully read), parse it, **replace** the whole `__metadata__` entry
with the given value, and write new header plus streamed payload.  `none`
models any exception (caught and re-raised as `IOError`). -/
def write_metadata (file : List Nat) (metadata : Json) : Option (List Nat) :=
  if (file.take 8).length ≠ 8 then none
  else
    let header_len := leVal (file.take 8)
    let header_bytes := (file.drop 8).take header_len
    match loadsBytes header_bytes with
    | some (Json.obj fields) =>
      let h2 := Json.obj (setKey fields metaKey metadata)
      let nhb := dumpsB h2
      if 18446744073709551616 ≤ nhb.length then none
      else some (leBytes 8 nhb.length ++ nhb ++ file.drop (8 + header_len))
    | _ => none

/-- Progress values reported by `SafetensorService.write_metadata` along the
same control flow as `write_metadata`: `none` when the write raises before its
copy loop starts (short prefix, undecodable header, header-length overflow),
otherwise the values the per-chunk callback receives. -/
def write_metadata_reports (file : List Nat) (metadata : Json) : Option (List Nat) :=
  if (file.take 8).length ≠ 8 then none
  else
    let header_len := leVal (file.take 8)
    let header_bytes := (file.drop 8).take header_len
    match loadsBytes header_bytes with
    | some (Json.obj fields) =>
      let nhb := dumpsB (Json.obj (setKey fields metaKey metadata))
      if 18446744073709551616 ≤ nhb.length then none
      else some (serviceLoop (file.drop (8 + header_len)) 0 file.length
          (file.length - (8 + header_len)))
    | _ => none

/-- ASCII lowercasing of one code point, as `str.lower` acts on ASCII. -/
def pyLower (c : Nat) : Nat := if 65 ≤ c ∧ c ≤ 90 then c + 32 else c

/-- Model of `utils.compute_sha256`: read the first 8 bytes little-endian
(however many are available), seek to `8 + header_len`, hash the rest, and
return `"0x"` plus the lowercased hex digest. -/
def compute_sha256 (file : List Nat) : List Nat :=
  let header_len := leVal (file.take 8)
  let tensor_bytes := file.drop (8 + header_len)
  let sha := (toHexStr (sha256 tensor_bytes)).map pyLower
  asc "0x" ++ sha

/-- Lookup in a flat string-to-string metadata map (Python `dict` get). -/
def getKeyS : List (List Nat × List Nat) → List Nat → Option (List Nat)
  | [], _ => none
  | (k', v) :: ms, k => if k' = k then some v else getKeyS ms k

/-- Membership in a flat string-to-string metadata map (Python `k in d`). -/
def hasKeyS (ms : List (List Nat × List Nat)) (k : List Nat) : Bool :=
  ms.any fun p => p.1 = k

/-- Replace the value at every pair with key `k` in a string map. -/
def replaceKeyS : List (List Nat × List Nat) → List Nat → List Nat →
    List (List Nat × List Nat)
  | [], _, _ => []
  | (k', v') :: ms, k, v =>
    if k' = k then (k, v) :: replaceKeyS ms k v else (k', v') :: replaceKeyS ms k v

/-- Python `d[k] = v` on a flat string map. -/
def setKeyS (ms : List (List Nat × List Nat)) (k : List Nat) (v : List Nat) :
    List (List Nat × List Nat) :=
  if hasKeyS ms k then replaceKeyS ms k v else ms ++ [(k, v)]

/-- Hash-completion step of `SaveChangesCommand._perform_save`: when the
merged metadata lacks `modelspec.hash_sha256`, compute it over the current
source file and insert it; otherwise leave the map untouched. -/
def hashStep (src : List Nat) (md : List (List Nat × List Nat)) :
    List (List Nat × List Nat) :=
  if hasKeyS md hashKey then md else setKeyS md hashKey (compute_sha256 src)

/-- The three files a save transaction touches: the source, the temp file
`source+".tmp"` and the backup `source+".bak"` (`none` = absent). -/
structure FS where
  source : Option (List Nat)
  temp : Option (List Nat)
  backup : Option (List Nat)
deriving DecidableEq, Repr

/-- The step at which a save transaction raised. -/
inductive Stage where
  | backupStage
  | patchStage
  | removeStage
  | renameStage
deriving DecidableEq, Repr

/-- Failure injection for the command save path: `backupFail` makes
`shutil.copy2` raise; `fastIo` makes the fast path's temp write raise after
`k` output bytes; `fallback` is the outcome of the safetensors-library
rewrite (the bytes it writes to the temp path, or an exception);
`removeFail`/`renameFail` make `os.remove(filepath)`/`os.rename` raise. -/
structure Env where
  backupFail : Bool
  fastIo : Option Nat
  fallback : Except Unit (List Nat)
  removeFail : Bool
  renameFail : Bool
deriving Repr

/-- One fast-path attempt with its effect on the temp file: header or merge
failure raises before the temp is opened; a header-length overflow raises
just after the temp was opened (truncating it); an injected I/O failure
leaves a partial temp; otherwise the temp holds the full output. -/
def fastAttempt (src : List Nat) (md : List (List Nat × List Nat))
    (io : Option Nat) : Option (List Nat) × Bool :=
  match decodeAndMerge src md with
  | none => (none, false)
  | some h2 =>
    let nhb := dumpsB h2
    if 18446744073709551616 ≤ nhb.length then (some [], false)
    else
      let out := leBytes 8 nhb.length ++ nhb ++ payloadBytes src
      match io with
      | some k => (some (out.take k), false)
      | none => (some out, true)

/-- Which strategy wrote the file. -/
inductive Method where
  | optimized
  | fallback
deriving DecidableEq, Repr

/-- Model of `update_safetensors_metadata`: try the fast path; if it returns
`False`, run the library fallback against the same source and temp path, and
let its exception (if any) propagate.  The pair is the final temp-file state
and the returned method (or the propagated error). -/
def update_safetensors_metadata (src : List Nat)
    (md : List (List Nat × List Nat)) (io : Option Nat)
    (fb : Except Unit (List Nat)) : Option (List Nat) × Except Unit Method :=
  match fastAttempt src md io with
  | (t, true) => (t, .ok .optimized)
  | (t, false) =>
    match fb with
    | .ok b => (some b, .ok .fallback)
    | .error _ => (t, .error ())

/-- Model of `SaveChangesCommand._perform_save` as a file-system transition:
hash completion, backup (remove stale backup, then copy the source), patch
with fallback, then delete-and-rename replace, then optional backup
discard.  Returns the final state, the stage that raised (if any), and the
trace of states after each executed step. -/
def perform_save (fs : FS) (discard : Bool)
    (md : List (List Nat × List Nat)) (env : Env) :
    FS × Option Stage × List FS :=
  match fs.source with
  | none => (fs, some .backupStage, [fs])
  | some src =>
    let md1 := hashStep src md
    let fsB : FS := { fs with backup := none }
    if env.backupFail then (fsB, some .backupStage, [fs, fsB])
    else
      let fs1 : FS := { fsB with backup := some src }
      let r := update_safetensors_metadata src md1 env.fastIo env.fallback
      let fs2 : FS := { fs1 with temp := r.1 }
      match r.2 with
      | .error _ => (fs2, some .patchStage, [fs, fsB, fs1, fs2])
      | .ok _ =>
        if env.removeFail then (fs2, some .removeStage, [fs, fsB, fs1, fs2])
        else
          let fs3 : FS := { fs2 with source := none }
          if env.renameFail then (fs3, some .renameStage, [fs, fsB, fs1, fs2, fs3])
          else
            let fs4 : FS := { fs3 with source := r.1, temp := none }
            if discard then
              let fs5 : FS := { fs4 with backup := none }
              (fs5, none, [fs, fsB, fs1, fs2, fs3, fs4, fs5])
            else (fs4, none, [fs, fsB, fs1, fs2, fs3, fs4])

/-- Failure injection for the service write path. -/
structure SEnv where
  writeFail : Bool
  replaceFail : Bool
deriving DecidableEq, Repr

/-- Model of `SafetensorService.write_metadata` as a file-system transition:
on any exception the `except`/`finally` clauses remove the temp file and the
source is untouched; on success `os.replace` atomically moves the temp over
the source. -/
def write_metadata_fs (fs : FS) (metadata : Json) (env : SEnv) : FS × Bool :=
  match fs.source with
  | none => ({ fs with temp := none }, false)
  | some src =>
    match write_metadata src metadata with
    | none => ({ fs with temp := none }, false)
    | some out =>
      if env.writeFail then ({ fs with temp := none }, false)
      else if env.replaceFail then ({ fs with temp := none }, false)
      else ({ fs with source := some out, temp := none }, true)

/-- Model of the legacy `editor.py` save path's file effects (lines around
`save_changes`): a backup copy is made only when the user picked the backup
choice, then the framework's `save_file` overwrites the source in place with
`saved`.  The trace lists the states after each step. -/
def editor_save (fs : FS) (overwrite : Bool) (saved : List Nat) :
    FS × List FS :=
  match fs.source with
  | none => (fs, [fs])
  | some src =>
    let fs1 := if overwrite then fs else { fs with backup := some src }
    let fs2 := { fs1 with source := some saved }
    (fs2, [fs, fs1, fs2])

theorem replaceKey_absent {ms : List (List Nat × Json)} {k : List Nat}
    (h : hasKey ms k = false) (v : Json) : replaceKey ms k v = ms := by
  induction ms with
  | nil => rfl
  | cons p t ih =>
    obtain ⟨k', v'⟩ := p
    simp only [hasKey, List.any_cons, Bool.or_eq_false_iff] at h
    have hk : ¬k' = k := by
      intro he
      simp [he] at h
    simp only [replaceKey, if_neg hk]
    rw [ih (by simpa [hasKey] using h.2)]

theorem getKey_replaceKey_self {ms : List (List Nat × Json)} {k : List Nat}
    (h : hasKey ms k = true) (v : Json) : getKey (replaceKey ms k v) k = some v := by
  induction ms with
  | nil => simp [hasKey] at h
  | cons p t ih =>
    obtain ⟨k', v'⟩ := p
    by_cases hk : k' = k
    · simp [replaceKey, hk, getKey]
    · simp only [replaceKey, if_neg hk, getKey, if_neg hk]
      apply ih
      simp only [hasKey, List.any_cons, Bool.or_eq_true] at h
      rcases h with h | h
      · exact absurd (by simpa using h) hk
      · simpa [hasKey] using h

theorem getKey_append_absent {ms : List (List Nat × Json)} {k : List Nat}
    (h : hasKey ms k = false) (tl : List (List Nat × Json)) :
    getKey (ms ++ tl) k = getKey tl k := by
  induction ms with
  | nil => rfl
  | cons p t ih =>
    obtain ⟨k', v'⟩ := p
    simp only [hasKey, List.any_cons, Bool.or_eq_false_iff] at h
    have hk : ¬k' = k := by
      intro he
      simp [he] at h
    simp only [List.cons_append, getKey, if_neg hk]
    exact ih (by simpa [hasKey] using h.2)

/-- Setting a key then reading it back gives the new value. -/
theorem getKey_setKey_self (ms : List (List Nat × Json)) (k : List Nat) (v : Json) :
    getKey (setKey ms k v) k = some v := by
  unfold setKey
  by_cases h : hasKey ms k = true
  · rw [if_pos h]
    exact getKey_replaceKey_self h v
  · rw [if_neg h]
    rw [getKey_append_absent (by simpa using h)]
    simp [getKey]

theorem getKey_replaceKey_ne {ms : List (List Nat × Json)} {k k2 : List Nat}
    (h : ¬k2 = k) (v : Json) : getKey (replaceKey ms k v) k2 = getKey ms k2 := by
  induction ms with
  | nil => rfl
  | cons p t ih =>
    obtain ⟨k', v'⟩ := p
    by_cases hk : k' = k
    · subst hk
      simp only [replaceKey, if_pos rfl, getKey]
      rw [if_neg (fun he => h he.symm), if_neg (fun he => h he.symm), ih]
    · simp only [replaceKey, if_neg hk, getKey, ih]

/-- Setting one key leaves every other key's value unchanged. -/
theorem getKey_setKey_ne {k k2 : List Nat} (h : ¬k2 = k)
    (ms : List (List Nat × Json)) (v : Json) :
    getKey (setKey ms k v) k2 = getKey ms k2 := by
  unfold setKey
  by_cases hm : hasKey ms k = true
  · rw [if_pos hm, getKey_replaceKey_ne h]
  · rw [if_neg hm]
    induction ms with
    | nil =>
      simp only [List.nil_append, getKey,
        if_neg (show ¬k = k2 from fun he => h he.symm)]
    | cons p t ih =>
      obtain ⟨k', v'⟩ := p
      simp only [List.cons_append, getKey]
      by_cases hk : k' = k2
      · simp [hk]
      · rw [if_neg hk, if_neg hk]
        apply ih
        simp only [hasKey, List.any_cons, Bool.or_eq_false_iff,
          Bool.not_eq_true] at hm ⊢
        exact hm.2

theorem hasKey_replaceKey (ms : List (List Nat × Json)) (k k2 : List Nat) (v : Json) :
    hasKey (replaceKey ms k v) k2 = hasKey ms k2 := by
  induction ms with
  | nil => rfl
  | cons p t ih =>
    obtain ⟨k', v'⟩ := p
    by_cases hk : k' = k
    · subst hk
      simp [replaceKey, hasKey, List.any_cons] at ih ⊢
      rw [ih]
    · simp [replaceKey, if_neg hk, hasKey, List.any_cons] at ih ⊢
      rw [ih]

/-- A key present before a `dict` assignment is still present after it. -/
theorem hasKey_setKey_of {ms : List (List Nat × Json)} {k2 : List Nat}
    (h : hasKey ms k2 = true) (k : List Nat) (v : Json) :
    hasKey (setKey ms k v) k2 = true := by
  unfold setKey
  by_cases hm : hasKey ms k = true
  · rw [if_pos hm, hasKey_replaceKey]
    exact h
  · rw [if_neg hm, hasKey_append, h]
    rfl

/-- Keys not named by the update keep their values across a merge. -/
theorem getKey_merge_absent {updates : List (List Nat × Json)} {k : List Nat}
    (h : ∀ p ∈ updates, ¬p.1 = k) (ex : List (List Nat × Json)) :
    getKey (merge_metadata ex updates) k = getKey ex k := by
  induction updates generalizing ex with
  | nil => rfl
  | cons p t ih =>
    obtain ⟨k', v'⟩ := p
    simp only [merge_metadata, List.foldl_cons]
    rw [show List.foldl (fun d p => setKey d p.1 p.2) (setKey ex k' v') t
        = merge_metadata (setKey ex k' v') t from rfl]
    rw [ih (fun q hq => h q (by simp [hq]))]
    exact getKey_setKey_ne (fun he => h (k', v') (by simp) (by simp [he])) ex v'

/-- Every pair of a duplicate-free update map ends up verbatim in the merge. -/
theorem getKey_merge_mem {updates : List (List Nat × Json)} {k : List Nat} {v : Json}
    (hmem : (k, v) ∈ updates) (hok : keysOk updates = true)
    (ex : List (List Nat × Json)) :
    getKey (merge_metadata ex updates) k = some v := by
  induction updates generalizing ex with
  | nil => cases hmem
  | cons p t ih =>
    obtain ⟨k', v'⟩ := p
    simp only [keysOk, Bool.and_eq_true, Bool.not_eq_true'] at hok
    rcases List.mem_cons.1 hmem with he | hmem2
    · injection he with he1 he2
      subst he1
      subst he2
      simp only [merge_metadata, List.foldl_cons]
      have habs : ∀ p ∈ t, ¬p.1 = k := (hasKey_false_iff t k).1 hok.1
      rw [show List.foldl (fun d p => setKey d p.1 p.2) (setKey ex k v) t
          = merge_metadata (setKey ex k v) t from rfl]
      rw [getKey_merge_absent habs]
      exact getKey_setKey_self ex k v
    · simp only [merge_metadata, List.foldl_cons]
      exact ih hmem2 hok.2 (setKey ex k' v')

/-- A merge never removes a key. -/
theorem hasKey_merge_of {ex : List (List Nat × Json)} {k : List Nat}
    (h : hasKey ex k = true) (updates : List (List Nat × Json)) :
    hasKey (merge_metadata ex updates) k = true := by
  induction updates generalizing ex with
  | nil => exact h
  | cons p t ih =>
    simp only [merge_metadata, List.foldl_cons]
    exact ih (hasKey_setKey_of h p.1 p.2)

theorem getKey_wf : ∀ {ms : List (List Nat × Json)}, wfMembs ms = true →
    ∀ {k : List Nat} {v : Json}, getKey ms k = some v → wfJ v = true
  | [], _, _, _, hg => by cases hg
  | (k', v') :: t, h, k, v, hg => by
    simp only [wfMembs, Bool.and_eq_true] at h
    simp only [getKey] at hg
    by_cases hk : k' = k
    · rw [if_pos hk] at hg
      cases hg
      exact h.1.1.2
    · rw [if_neg hk] at hg
      exact getKey_wf h.2 hg

theorem wfMembs_setKey {ms : List (List Nat × Json)} (h : wfMembs ms = true)
    {k : List Nat} {v : Json} (hk : k.all okCp = true) (hv : wfJ v = true) :
    wfMembs (setKey ms k v) = true := by
  unfold setKey
  by_cases hm : hasKey ms k = true
  · rw [if_pos hm]
    induction ms with
    | nil => simp [hasKey] at hm
    | cons p t ih =>
      obtain ⟨k', v'⟩ := p
      simp only [wfMembs, Bool.and_eq_true, Bool.not_eq_true'] at h
      by_cases hkk : k' = k
      · subst hkk
        simp only [replaceKey, if_pos rfl]
        rw [replaceKey_absent h.1.2 v]
        simp only [wfMembs, Bool.and_eq_true, Bool.not_eq_true']
        exact ⟨⟨⟨hk, hv⟩, h.1.2⟩, h.2⟩
      · simp only [replaceKey, if_neg hkk]
        have hmt : hasKey t k = true := by
          simp only [hasKey, List.any_cons, Bool.or_eq_true] at hm
          rcases hm with hm | hm
          · exact absurd (by simpa using hm) hkk
          · simpa [hasKey] using hm
        simp only [wfMembs, Bool.and_eq_true, Bool.not_eq_true']
        refine ⟨⟨h.1.1, ?_⟩, ih h.2 hmt⟩
        rw [hasKey_replaceKey]
        exact h.1.2
  · rw [if_neg hm]
    induction ms with
    | nil =>
      simp only [List.nil_append, wfMembs, Bool.and_eq_true, Bool.not_eq_true']
      exact ⟨⟨⟨hk, hv⟩, rfl⟩, trivial⟩
    | cons p t ih =>
      obtain ⟨k', v'⟩ := p
      simp only [wfMembs, Bool.and_eq_true, Bool.not_eq_true'] at h
      have hm2 : hasKey t k = false := by
        simp only [hasKey, List.any_cons, Bool.or_eq_false_iff,
          Bool.not_eq_true] at hm ⊢
        exact hm.2
      have hne : ¬k' = k := by
        intro he
        simp [hasKey, List.any_cons, he] at hm
      simp only [List.cons_append, wfMembs, Bool.and_eq_true, Bool.not_eq_true']
      refine ⟨⟨h.1.1, ?_⟩, ih h.2 (by simp [hm2])⟩
      show hasKey (t ++ [(k, v)]) k' = false
      rw [hasKey_append, h.1.2]
      simp only [Bool.false_or, hasKey, List.any_cons, List.any_nil, Bool.or_false]
      simpa using fun he => hne he.symm

theorem wfMembs_merge {updates : List (List Nat × Json)}
    (hupd : ∀ p ∈ updates, p.1.all okCp = true ∧ wfJ p.2 = true) :
    ∀ {ex : List (List Nat × Json)}, wfMembs ex = true →
      wfMembs (merge_metadata ex updates) = true := by
  induction updates with
  | nil => intro ex hex; exact hex
  | cons p t ih =>
    intro ex hex
    obtain ⟨k, v⟩ := p
    have hp := hupd (k, v) (by simp)
    simp only [merge_metadata, List.foldl_cons]
    exact ih (fun q hq => hupd q (by simp [hq])) (wfMembs_setKey hex hp.1 hp.2)

theorem copyLoop_written : ∀ (n : Nat) (p : List Nat), p.length ≤ n →
    ∀ (c t : Nat) (l : Int), (copyLoop p c t l).1 = p
  | n, p, hp, c, t, l => by
    by_cases hz : p = []
    · subst hz
      simp [copyLoop]
    · rw [copyLoop.eq_def]
      rw [if_neg hz]
      have hpos : 0 < p.length := List.length_pos.2 hz
      have hn : (p.drop chunkSize).length ≤ n - 1 := by
        simp only [List.length_drop]
        have : chunkSize = 33554432 := rfl
        omega
      have ih := copyLoop_written (n - 1) (p.drop chunkSize) hn
      split_ifs <;> simp only [ih, List.take_append_drop] <;> (try (split <;> rfl))
termination_by n _ _ _ _ _ => n
decreasing_by
  have hpos : 0 < p.length := List.length_pos.2 hz
  omega

/-- A metadata edit whose keys and values carry only code points a decoded
Python string can hold. -/
def wfEdit (edit : List (List Nat × List Nat)) : Bool :=
  edit.all fun p => p.1.all okCp && p.2.all okCp

/-- The decoded JSON header of a file. -/
def headerJson (file : List Nat) : Option Json :=
  loadsBytes ((file.drop 8).take (leVal (file.take 8)))

/-- Whether the file's decodable header is well-formed (files whose headers
spell lone UTF-16 surrogates via `\uXXXX` escapes are excluded: Python's own
`json` round-trip already fails on those). -/
def wfHeaderB (file : List Nat) : Bool :=
  match headerJson file with
  | some h => wfJ h
  | none => true

theorem strEdit_wf {edit : List (List Nat × List Nat)} (h : wfEdit edit = true) :
    ∀ p ∈ strEdit edit, p.1.all okCp = true ∧ wfJ p.2 = true := by
  intro p hp
  simp only [strEdit, List.mem_map] at hp
  obtain ⟨q, hq, rfl⟩ := hp
  simp only [wfEdit, List.all_eq_true] at h
  have hqq := h q hq
  simp only [Bool.and_eq_true] at hqq
  refine ⟨hqq.1, ?_⟩
  rw [wfJ]
  exact hqq.2

theorem metaKey_ok : metaKey.all okCp = true := by decide

theorem wfJ_obj (ms : List (List Nat × Json)) : wfJ (.obj ms) = wfMembs ms := by
  simp [wfJ]

theorem wfJ_str (t : List Nat) : wfJ (.str t) = t.all okCp := by
  simp [wfJ]

theorem wfMembs_nil : wfMembs ([] : List (List Nat × Json)) = true := by
  simp [wfMembs]

/-- Everything the fast path guarantees about its output: the original file's
metadata reads back as some object `m`, and the output file's metadata reads
back as exactly the merge of `m` with the edit; moreover the output's payload
byte range equals the source's. -/
theorem update_metadata_read {file : List Nat} {edit : List (List Nat × List Nat)}
    {out reps : List Nat} (hwfe : wfEdit edit = true) (hwfh : wfHeaderB file = true)
    (hum : update_metadata file edit = some (out, reps)) :
    ∃ m, read_metadata file = .ok (Json.obj m) ∧
      read_metadata out = .ok (Json.obj (merge_metadata m (strEdit edit))) ∧
      payloadBytes out = payloadBytes file := by
  unfold update_metadata at hum
  cases hdm : decodeAndMerge file edit with
  | none => rw [hdm] at hum; cases hum
  | some h2 =>
    rw [hdm] at hum
    simp only at hum
    by_cases hov : 18446744073709551616 ≤ (dumpsB h2).length
    · rw [if_pos hov] at hum; cases hum
    rw [if_neg hov] at hum
    rw [copyLoop_written (file.drop (8 + leVal (file.take 8))).length _ (by rfl)] at hum
    injection hum with hpair
    injection hpair with ho hr
    have hout : out = leBytes 8 (dumpsB h2).length ++ dumpsB h2 ++ payloadBytes file :=
      ho.symm
    clear ho hr
    unfold decodeAndMerge at hdm
    by_cases h8 : (file.take 8).length ≠ 8
    · rw [if_pos h8] at hdm; cases hdm
    rw [if_neg h8] at hdm
    by_cases hhl : ((file.drop 8).take (leVal (file.take 8))).length ≠ leVal (file.take 8)
    · rw [if_pos hhl] at hdm; cases hdm
    rw [if_neg hhl] at hdm
    cases hlb : loadsBytes ((file.drop 8).take (leVal (file.take 8))) with
    | none => rw [hlb] at hdm; cases hdm
    | some hj =>
      rw [hlb] at hdm
      cases hj with
      | null => simp only at hdm; cases hdm
      | bool b => simp only at hdm; cases hdm
      | num n => simp only at hdm; cases hdm
      | rawnum t => simp only at hdm; cases hdm
      | str s => simp only at hdm; cases hdm
      | arr es => simp only at hdm; cases hdm
      | obj fields =>
        simp only at hdm
        have hwfF : wfMembs fields = true := by
          have hw : wfHeaderB file = true := hwfh
          unfold wfHeaderB headerJson at hw
          rw [hlb] at hw
          simpa [wfJ_obj] using hw
        set h1 := if (getKey fields metaKey).isNone
          then setKey fields metaKey (Json.obj []) else fields with hh1
        cases hget : getKey h1 metaKey with
        | none => rw [hget] at hdm; cases hdm
        | some gv =>
          rw [hget] at hdm
          cases gv with
          | null => simp only at hdm; cases hdm
          | bool b => simp only at hdm; cases hdm
          | num n => simp only at hdm; cases hdm
          | rawnum t => simp only at hdm; cases hdm
          | str s => simp only at hdm; cases hdm
          | arr es => simp only at hdm; cases hdm
          | obj m =>
            simp only at hdm
            injection hdm with hdm2
            have hwfH1 : wfMembs h1 = true := by
              rw [hh1]
              by_cases hiso : (getKey fields metaKey).isNone
              · rw [if_pos hiso]
                exact wfMembs_setKey hwfF metaKey_ok (by rw [wfJ_obj]; exact wfMembs_nil)
              · rw [if_neg hiso]
                exact hwfF
            have hwfM : wfMembs m = true := by
              have hgw := getKey_wf hwfH1 hget
              rwa [wfJ_obj] at hgw
            have hwfMerged : wfMembs (merge_metadata m (strEdit edit)) = true :=
              wfMembs_merge (strEdit_wf hwfe) hwfM
            have hwfH2 : wfJ h2 = true := by
              rw [← hdm2, wfJ_obj]
              exact wfMembs_setKey hwfH1 metaKey_ok (by rw [wfJ_obj]; exact hwfMerged)
            have hlen8 : (leBytes 8 (dumpsB h2).length).length = 8 :=
              leBytes_length 8 _
            have htake : (leBytes 8 (dumpsB h2).length ++ dumpsB h2 ++ payloadBytes file).take 8
                = leBytes 8 (dumpsB h2).length := by
              rw [List.append_assoc]
              exact List.take_left' hlen8
            have hdropOut : (leBytes 8 (dumpsB h2).length ++ dumpsB h2 ++ payloadBytes file).drop 8
                = dumpsB h2 ++ payloadBytes file := by
              rw [List.append_assoc]
              exact List.drop_left' hlen8
            have hval : leVal (leBytes 8 (dumpsB h2).length) = (dumpsB h2).length := by
              apply leVal_leBytes_of_lt
              have h256 : (256 : Nat) ^ 8 = 18446744073709551616 := by norm_num
              omega
            refine ⟨m, ?_, ?_, ?_⟩
            · by_cases hiso : (getKey fields metaKey).isNone
              · have hnone : getKey fields metaKey = none := by
                  cases hx : getKey fields metaKey
                  · rfl
                  · rw [hx] at hiso; simp at hiso
                have hge : getKey h1 metaKey = some (Json.obj []) := by
                  rw [hh1, if_pos hiso]
                  exact getKey_setKey_self fields metaKey (Json.obj [])
                rw [hget] at hge
                injection hge with hv
                unfold read_metadata
                rw [if_neg h8, if_neg hhl, hlb]
                simp only [hnone, Option.getD_none]
                rw [← hv]
              · have hf : h1 = fields := by rw [hh1, if_neg hiso]
                unfold read_metadata
                rw [if_neg h8, if_neg hhl, hlb]
                simp only [← hf, hget, Option.getD_some]
            · rw [hout]
              unfold read_metadata
              simp only [htake, hlen8, hval, hdropOut]
              rw [if_neg (by omega)]
              rw [List.take_left' rfl]
              rw [if_neg (by simp)]
              rw [loadsBytes_dumpsB hwfH2, ← hdm2]
              simp only [getKey_setKey_self, Option.getD_some]
            · rw [hout]
              conv_lhs => rw [payloadBytes]
              rw [htake, hval]
              exact List.drop_left' (by simp [leBytes_length])

/-- One whole payload fits in a single fast-path chunk: the loop reports the
single percentage `100`. -/
theorem copyLoop_single {p : List Nat} (hne : p ≠ []) (hlen : p.length ≤ chunkSize) :
    copyLoop p 0 p.length (-1) = (p, [100]) := by
  have ht : 0 < p.length := List.length_pos.2 hne
  have h1 : p.length * 100 / p.length = 100 := by
    rw [Nat.mul_comm]
    exact Nat.mul_div_cancel _ ht
  rw [copyLoop.eq_def, if_neg hne]
  simp only [List.take_of_length_le hlen, List.drop_eq_nil_of_le hlen, Nat.zero_add,
    if_pos ht, h1]
  rw [if_pos (by norm_num)]
  rw [copyLoop]
  simp

/-- The service write loop reports exactly once per chunk: its report list has
one entry per `1 MiB` (or part) of payload whenever the file is nonempty. -/
theorem serviceLoop_length : ∀ (n : Nat) (p : List Nat) (c t d : Nat), p.length ≤ n →
    0 < t → (serviceLoop p c t d).length = (p.length + 1048575) / 1048576 := by
  intro n
  induction n with
  | zero =>
    intro p c t d hn ht
    have hp : p = [] := List.length_eq_zero.1 (Nat.le_zero.1 hn)
    subst hp
    rw [serviceLoop]
    simp
  | succ n ih =>
    intro p c t d hn ht
    by_cases hp : p = []
    · subst hp
      rw [serviceLoop]
      simp
    · have h1 : 0 < p.length := List.length_pos.2 hp
      have hcs : serviceChunk = 1048576 := rfl
      rw [serviceLoop.eq_def, if_neg hp, if_pos ht]
      simp only [List.length_cons]
      rw [ih (p.drop serviceChunk) (c + (p.take serviceChunk).length) t d
        (by simp only [List.length_drop]; omega) ht]
      simp only [List.length_drop]
      omega

/-- Invariant bound on the fast path's reports: percentages are even, grow
strictly, and stay within `(last, 100]`, so the report list can hold at most
`(100 - last) / 2` entries. -/
theorem copyLoop_bound : ∀ (n : Nat) (p : List Nat) (c t : Nat) (last : Int),
    p.length ≤ n → 0 < t → c + p.length ≤ t →
    (last = -1 ∨ (last % 2 = 0 ∧ 0 ≤ last ∧
      last ≤ ((c * 100 / t / 2 * 2 : Nat) : Int) ∧ last ≤ 100)) →
    2 * (copyLoop p c t last).2.length ≤ (100 - last).toNat := by
  intro n
  induction n with
  | zero =>
    intro p c t last hn ht hct hl
    have hp : p = [] := List.length_eq_zero.1 (Nat.le_zero.1 hn)
    subst hp
    rw [copyLoop]
    simp
  | succ n ih =>
    intro p c t last hn ht hct hl
    by_cases hp : p = []
    · subst hp
      rw [copyLoop]
      simp
    · have h1 : 0 < p.length := List.length_pos.2 hp
      have hcs : chunkSize = 33554432 := rfl
      have htk : (p.take chunkSize).length = min chunkSize p.length :=
        List.length_take _ _
      have hdp : (p.drop chunkSize).length = p.length - chunkSize :=
        List.length_drop _ _
      rw [copyLoop.eq_def, if_neg hp, if_pos ht]
      dsimp only
      set c1 := c + (p.take chunkSize).length with hc1
      have hc1t : c1 ≤ t := by omega
      have hpi100 : c1 * 100 / t / 2 * 2 ≤ 100 := by
        have h2 : c1 * 100 ≤ t * 100 := by omega
        have h3 : c1 * 100 / t ≤ t * 100 / t := Nat.div_le_div_right h2
        have h4 : t * 100 / t = 100 := by
          rw [Nat.mul_comm]
          exact Nat.mul_div_cancel _ ht
        have h5 : c1 * 100 / t / 2 * 2 ≤ c1 * 100 / t := Nat.div_mul_le_self _ _
        omega
      have hmono : c * 100 / t / 2 * 2 ≤ c1 * 100 / t / 2 * 2 := by
        have h2 : c * 100 ≤ c1 * 100 := by omega
        have h3 : c * 100 / t ≤ c1 * 100 / t := Nat.div_le_div_right h2
        have h4 : c * 100 / t / 2 ≤ c1 * 100 / t / 2 := Nat.div_le_div_right h3
        omega
      have hrecn : (p.drop chunkSize).length ≤ n := by omega
      have hrect : c1 + (p.drop chunkSize).length ≤ t := by omega
      split_ifs with hcond
      · obtain ⟨hne, heven, hpos⟩ := hcond
        simp only [List.length_cons]
        have hrec := ih (p.drop chunkSize) c1 t
          ((c1 * 100 / t / 2 * 2 : Nat) : Int) hrecn ht hrect
          (Or.inr ⟨by omega, by omega, le_refl _, by omega⟩)
        rcases hl with hm1 | ⟨hle, h0, hlc, h100⟩
        · omega
        · omega
      · have hl2 : ((c1 * 100 / t / 2 * 2 : Nat) : Int) = last ∨
            c1 * 100 / t / 2 * 2 = 0 := by
          by_cases he : ((c1 * 100 / t / 2 * 2 : Nat) : Int) = last
          · exact Or.inl he
          · right
            by_cases hz : 0 < c1 * 100 / t / 2 * 2
            · exact absurd ⟨he, by omega, hz⟩ hcond
            · omega
        have hrec := ih (p.drop chunkSize) c1 t last hrecn ht hrect
          (by
            rcases hl2 with he | hz
            · exact Or.inr ⟨by omega, by omega, by omega, by omega⟩
            · rcases hl with hm1 | ⟨hle, h0, hlc, h100⟩
              · exact Or.inl hm1
              · exact Or.inr ⟨hle, h0, by omega, h100⟩)
        exact hrec

/-- A safetensors container assembled from header members `ms` and payload
`p`: 8-byte little-endian length of the compact header, the header bytes,
then the payload. -/
def encodeFile (ms : List (List Nat × Json)) (p : List Nat) : List Nat :=
  leBytes 8 (dumpsB (Json.obj ms)).length ++ dumpsB (Json.obj ms) ++ p

/-- The pure merge step `update_metadata` performs once the header has been
decoded to the member list `ms`: default `"__metadata__"` to an empty object,
then `dict.update` it with the edit. -/
def dmCore (ms : List (List Nat × Json)) (edit : List (List Nat × List Nat)) :
    Option Json :=
  let h1 := if (getKey ms metaKey).isNone
    then setKey ms metaKey (Json.obj []) else ms
  match getKey h1 metaKey with
  | some (Json.obj m) =>
    some (Json.obj (setKey h1 metaKey (Json.obj (merge_metadata m (strEdit edit)))))
  | _ => none

theorem encodeFile_take8 (ms : List (List Nat × Json)) (p : List Nat) :
    (encodeFile ms p).take 8 = leBytes 8 (dumpsB (Json.obj ms)).length := by
  unfold encodeFile
  rw [List.append_assoc]
  exact List.take_left' (leBytes_length 8 _)

theorem encodeFile_drop8 (ms : List (List Nat × Json)) (p : List Nat) :
    (encodeFile ms p).drop 8 = dumpsB (Json.obj ms) ++ p := by
  unfold encodeFile
  rw [List.append_assoc]
  exact List.drop_left' (leBytes_length 8 _)

theorem leVal_header_len {ms : List (List Nat × Json)}
    (hlt : (dumpsB (Json.obj ms)).length < 18446744073709551616) :
    leVal (leBytes 8 (dumpsB (Json.obj ms)).length) = (dumpsB (Json.obj ms)).length := by
  apply leVal_leBytes_of_lt
  have h256 : (256 : Nat) ^ 8 = 18446744073709551616 := by norm_num
  omega

theorem encodeFile_payload {ms : List (List Nat × Json)} (p : List Nat)
    (hlt : (dumpsB (Json.obj ms)).length < 18446744073709551616) :
    payloadBytes (encodeFile ms p) = p := by
  unfold payloadBytes
  rw [encodeFile_take8, leVal_header_len hlt]
  unfold encodeFile
  exact List.drop_left' (by simp [leBytes_length])

theorem read_metadata_enc {ms : List (List Nat × Json)} (p : List Nat)
    (hwf : wfJ (Json.obj ms) = true)
    (hlt : (dumpsB (Json.obj ms)).length < 18446744073709551616) :
    read_metadata (encodeFile ms p) = .ok ((getKey ms metaKey).getD (Json.obj [])) := by
  have htk : (dumpsB (Json.obj ms) ++ p).take (dumpsB (Json.obj ms)).length
      = dumpsB (Json.obj ms) := List.take_left' rfl
  unfold read_metadata
  simp only [encodeFile_take8, encodeFile_drop8, leBytes_length, leVal_header_len hlt, htk]
  rw [if_neg (by omega), if_neg (by omega), loadsBytes_dumpsB hwf]

theorem wfHeaderB_enc {ms : List (List Nat × Json)} (p : List Nat)
    (hwf : wfJ (Json.obj ms) = true)
    (hlt : (dumpsB (Json.obj ms)).length < 18446744073709551616) :
    wfHeaderB (encodeFile ms p) = true := by
  have htk : (dumpsB (Json.obj ms) ++ p).take (dumpsB (Json.obj ms)).length
      = dumpsB (Json.obj ms) := List.take_left' rfl
  unfold wfHeaderB headerJson
  simp only [encodeFile_take8, encodeFile_drop8, leVal_header_len hlt, htk,
    loadsBytes_dumpsB hwf]
  exact hwf

theorem decodeAndMerge_enc {ms : List (List Nat × Json)} (p : List Nat)
    (edit : List (List Nat × List Nat)) (hwf : wfJ (Json.obj ms) = true)
    (hlt : (dumpsB (Json.obj ms)).length < 18446744073709551616) :
    decodeAndMerge (encodeFile ms p) edit = dmCore ms edit := by
  have htk : (dumpsB (Json.obj ms) ++ p).take (dumpsB (Json.obj ms)).length
      = dumpsB (Json.obj ms) := List.take_left' rfl
  unfold decodeAndMerge dmCore
  simp only [encodeFile_take8, encodeFile_drop8, leBytes_length, leVal_header_len hlt, htk]
  rw [if_neg (by omega), if_neg (by omega), loadsBytes_dumpsB hwf]

theorem update_metadata_enc {ms : List (List Nat × Json)}
    {edit : List (List Nat × List Nat)} {h2 : Json} (p : List Nat)
    (hwf : wfJ (Json.obj ms) = true)
    (hlt : (dumpsB (Json.obj ms)).length < 18446744073709551616)
    (hdm : dmCore ms edit = some h2)
    (hlt2 : (dumpsB h2).length < 18446744073709551616) :
    update_metadata (encodeFile ms p) edit =
      some (leBytes 8 (dumpsB h2).length ++ dumpsB h2 ++ p,
        (copyLoop p 0 p.length (-1)).2) := by
  have hds : (encodeFile ms p).drop (8 + (dumpsB (Json.obj ms)).length) = p := by
    unfold encodeFile
    exact List.drop_left' (by simp [leBytes_length])
  have hlenf : (encodeFile ms p).length - (8 + (dumpsB (Json.obj ms)).length)
      = p.length := by
    simp only [encodeFile, List.length_append, leBytes_length]
    omega
  unfold update_metadata
  rw [decodeAndMerge_enc p edit hwf hlt, hdm]
  simp only
  rw [if_neg (by omega)]
  simp only [encodeFile_take8, leVal_header_len hlt, hds, hlenf]
  rw [copyLoop_written p.length p (Nat.le_refl _)]

theorem write_metadata_enc {ms : List (List Nat × Json)} (p : List Nat) (md : Json)
    (hwf : wfJ (Json.obj ms) = true)
    (hlt : (dumpsB (Json.obj ms)).length < 18446744073709551616)
    (hlt2 : (dumpsB (Json.obj (setKey ms metaKey md))).length < 18446744073709551616) :
    write_metadata (encodeFile ms p) md = some (encodeFile (setKey ms metaKey md) p) := by
  have htk : (dumpsB (Json.obj ms) ++ p).take (dumpsB (Json.obj ms)).length
      = dumpsB (Json.obj ms) := List.take_left' rfl
  have hds : (encodeFile ms p).drop (8 + (dumpsB (Json.obj ms)).length) = p := by
    unfold encodeFile
    exact List.drop_left' (by simp [leBytes_length])
  unfold write_metadata
  simp only [encodeFile_take8, encodeFile_drop8, leBytes_length, leVal_header_len hlt,
    htk, hds]
  rw [if_neg (by omega), loadsBytes_dumpsB hwf]
  simp only [if_neg (show ¬18446744073709551616 ≤
    (dumpsB (Json.obj (setKey ms metaKey md))).length by omega)]
  rfl

/-- The inner metadata object of the concrete test header `msB`. -/
def msB0 : List (List Nat × Json) := [(asc "a", Json.str (asc "1"))]

/-- Header members of a concrete file whose metadata map is empty. -/
def msA : List (List Nat × Json) := [(metaKey, Json.obj [])]

/-- Header members of a concrete file whose metadata maps `"a"` to `"1"`. -/
def msB : List (List Nat × Json) := [(metaKey, Json.obj msB0)]

theorem dumpsB_msA : dumpsB (Json.obj msA) = asc "\x7b\"__metadata__\":\x7b\x7d\x7d" := by
  simp [msA, dumpsB, dumpMembs, dumpMembSep, dumpStr, escChar, metaKey, asc]

theorem dumpsB_msB :
    dumpsB (Json.obj msB) = asc "\x7b\"__metadata__\":\x7b\"a\":\"1\"\x7d\x7d" := by
  simp [msB, msB0, dumpsB, dumpMembs, dumpMembSep, dumpStr, escChar, metaKey, asc]

theorem dumpsB_nilObj : dumpsB (Json.obj []) = [123, 125] := by
  simp [dumpsB, dumpMembs]

theorem wf_msA : wfJ (Json.obj msA) = true := by decide

theorem wf_msB : wfJ (Json.obj msB) = true := by decide

theorem wf_nilObj : wfJ (Json.obj ([] : List (List Nat × Json))) = true := by decide

theorem lt_msA : (dumpsB (Json.obj msA)).length < 18446744073709551616 := by
  rw [dumpsB_msA]
  decide

theorem lt_msB : (dumpsB (Json.obj msB)).length < 18446744073709551616 := by
  rw [dumpsB_msB]
  decide

theorem lt_nilObj :
    (dumpsB (Json.obj ([] : List (List Nat × Json)))).length < 18446744073709551616 := by
  rw [dumpsB_nilObj]
  decide

theorem dm_msA : dmCore msA [] = some (Json.obj msA) := by
  simp [dmCore, msA, getKey, setKey, hasKey, replaceKey, merge_metadata, strEdit]

theorem dm_msB : dmCore msB [] = some (Json.obj msB) := by
  simp [dmCore, msB, msB0, getKey, setKey, hasKey, replaceKey, merge_metadata, strEdit]

theorem setKey_msB_empty : setKey msB metaKey (Json.obj []) = msA := by
  simp [msA, msB, setKey, hasKey, replaceKey]

/-- Fast-path run on the concrete empty-metadata file with the empty edit:
the header is re-serialized unchanged and the 1-byte payload reports `100%`
once. -/
theorem hA_um : update_metadata (encodeFile msA [5]) []
    = some (leBytes 8 (dumpsB (Json.obj msA)).length ++ dumpsB (Json.obj msA) ++ [5],
        [100]) := by
  have hcl : copyLoop [5] 0 ([5] : List Nat).length (-1) = ([5], [100]) :=
    copyLoop_single (by simp) (by norm_num [chunkSize])
  rw [update_metadata_enc [5] wf_msA lt_msA dm_msA lt_msA, hcl]

/-- Fast-path run on the concrete nonempty-metadata file with the empty edit. -/
theorem hB_um : update_metadata (encodeFile msB [7, 7, 7]) []
    = some (leBytes 8 (dumpsB (Json.obj msB)).length ++ dumpsB (Json.obj msB) ++ [7, 7, 7],
        [100]) := by
  have hcl : copyLoop [7, 7, 7] 0 ([7, 7, 7] : List Nat).length (-1)
      = ([7, 7, 7], [100]) :=
    copyLoop_single (by simp) (by norm_num [chunkSize])
  rw [update_metadata_enc [7, 7, 7] wf_msB lt_msB dm_msB lt_msB, hcl]

/-- C1 (amended): for every file with a well-formed decodable header and every
code-point-clean edit on which the fast path succeeds, reading the metadata of
the patched output yields exactly the merge of the file's original metadata
with the edit; keys absent from the edit keep their values and no key is
deleted.  (The original claim also covered the service writer, which replaces
the whole map — see the counterexample.) -/
theorem update_metadata_roundtrip {file : List Nat} {edit : List (List Nat × List Nat)}
    {out reps : List Nat} (hwfe : wfEdit edit = true) (hwfh : wfHeaderB file = true)
    (hum : update_metadata file edit = some (out, reps)) :
    ∃ m, read_metadata file = .ok (Json.obj m) ∧
      read_metadata out = .ok (Json.obj (merge_metadata m (strEdit edit))) ∧
      (∀ k, hasKey (strEdit edit) k = false →
        getKey (merge_metadata m (strEdit edit)) k = getKey m k) ∧
      (∀ k, hasKey m k = true → hasKey (merge_metadata m (strEdit edit)) k = true) := by
  obtain ⟨m, h1, h2, _⟩ := update_metadata_read hwfe hwfh hum
  exact ⟨m, h1, h2,
    fun k hk => getKey_merge_absent ((hasKey_false_iff _ _).1 hk) m,
    fun k hk => hasKey_merge_of hk _⟩

/-- C1 witness: the round trip instantiated on a concrete file whose header is
`\x7b"__metadata__":\x7b\x7d\x7d` with a one-byte payload and the empty edit. -/
theorem update_metadata_roundtrip_witness :
    ∃ m, read_metadata (encodeFile msA [5]) = .ok (Json.obj m) ∧
      read_metadata (leBytes 8 (dumpsB (Json.obj msA)).length
          ++ dumpsB (Json.obj msA) ++ [5])
        = .ok (Json.obj (merge_metadata m (strEdit []))) ∧
      (∀ k, hasKey (strEdit []) k = false →
        getKey (merge_metadata m (strEdit [])) k = getKey m k) ∧
      (∀ k, hasKey m k = true → hasKey (merge_metadata m (strEdit [])) k = true) :=
  update_metadata_roundtrip (by decide) (wfHeaderB_enc [5] wf_msA lt_msA) hA_um

/-- C1 counterexample: the service write path (`SafetensorService.write_metadata`)
replaces the whole `"__metadata__"` object instead of merging.  A file whose
metadata maps `"a"` to `"1"`, written with an empty metadata map, reads back
empty — the key `"a"` was deleted, and the result differs from the merge of
the original metadata with an empty edit. -/
theorem write_metadata_replaces :
    read_metadata (encodeFile msB []) = .ok (Json.obj msB0) ∧
    write_metadata (encodeFile msB []) (Json.obj []) = some (encodeFile msA []) ∧
    read_metadata (encodeFile msA []) = .ok (Json.obj []) ∧
    Json.obj [] ≠ Json.obj (merge_metadata msB0 (strEdit [])) := by
  refine ⟨?_, ?_, ?_, ?_⟩
  · rw [read_metadata_enc [] wf_msB lt_msB]
    simp [msB, getKey]
  · rw [write_metadata_enc [] (Json.obj []) wf_msB lt_msB
      (by rw [setKey_msB_empty]; exact lt_msA), setKey_msB_empty]
  · rw [read_metadata_enc [] wf_msA lt_msA]
    simp [msA, getKey]
  · intro h
    injection h with h2
    simp [merge_metadata, strEdit, msB0] at h2

/-- C2: whenever the fast path succeeds, the output file's payload byte range
(everything after the 8-byte length prefix and the header) is byte-identical
to the source file's payload byte range. -/
theorem update_metadata_payload_invariant {file : List Nat}
    {edit : List (List Nat × List Nat)} {out reps : List Nat}
    (hum : update_metadata file edit = some (out, reps)) :
    payloadBytes out = payloadBytes file := by
  unfold update_metadata at hum
  cases hdm : decodeAndMerge file edit with
  | none =>
    rw [hdm] at hum
    cases hum
  | some h2 =>
    rw [hdm] at hum
    simp only at hum
    by_cases hov : 18446744073709551616 ≤ (dumpsB h2).length
    · rw [if_pos hov] at hum
      cases hum
    rw [if_neg hov] at hum
    rw [copyLoop_written (file.drop (8 + leVal (file.take 8))).length _
      (Nat.le_refl _)] at hum
    injection hum with hpair
    injection hpair with ho hr
    have hlen8 : (leBytes 8 (dumpsB h2).length).length = 8 := leBytes_length 8 _
    have htake : (leBytes 8 (dumpsB h2).length ++ dumpsB h2
        ++ file.drop (8 + leVal (file.take 8))).take 8
        = leBytes 8 (dumpsB h2).length := by
      rw [List.append_assoc]
      exact List.take_left' hlen8
    have hval : leVal (leBytes 8 (dumpsB h2).length) = (dumpsB h2).length := by
      apply leVal_leBytes_of_lt
      have h256 : (256 : Nat) ^ 8 = 18446744073709551616 := by norm_num
      omega
    rw [← ho]
    conv_lhs => rw [payloadBytes]
    rw [htake, hval]
    exact List.drop_left' (by simp [leBytes_length])

/-- C2 witness: payload invariance instantiated on a concrete run over the
nonempty-metadata test file with a three-byte payload. -/
theorem update_metadata_payload_invariant_witness :
    payloadBytes (leBytes 8 (dumpsB (Json.obj msB)).length ++ dumpsB (Json.obj msB)
      ++ [7, 7, 7]) = payloadBytes (encodeFile msB [7, 7, 7]) :=
  update_metadata_payload_invariant hB_um

/-- C3 (amended): the service write path removes the temp file and leaves
source and backup untouched on every failure, and the command save path
leaves the source untouched for every failure raised before the rename step
(the point of no return in its delete-then-rename replace).  (The original
claim covered any pre-replace failure on both paths; the command path keeps
the temp file and its rename step can lose the source — see the
counterexample.) -/
theorem save_failure_safety (fs : FS) (metadata : Json) (env : SEnv)
    (fs2 : FS) (discard : Bool) (md : List (List Nat × List Nat)) (env2 : Env) :
    ((write_metadata_fs fs metadata env).2 = false →
      (write_metadata_fs fs metadata env).1.source = fs.source ∧
      (write_metadata_fs fs metadata env).1.temp = none ∧
      (write_metadata_fs fs metadata env).1.backup = fs.backup) ∧
    (∀ st, (perform_save fs2 discard md env2).2.1 = some st →
      st ≠ Stage.renameStage →
      (perform_save fs2 discard md env2).1.source = fs2.source) := by
  constructor
  · intro hf
    unfold write_metadata_fs at hf ⊢
    cases hsrc : fs.source with
    | none => simp [hsrc]
    | some src =>
      simp only [hsrc] at hf ⊢
      cases hw : write_metadata src metadata with
      | none => simp [hw]
      | some out =>
        simp only [hw] at hf ⊢
        by_cases h1 : env.writeFail
        · simp [h1, hsrc]
        · by_cases h2 : env.replaceFail
          · simp [h1, h2, hsrc]
          · simp [h1, h2] at hf
  · intro st hst hne
    unfold perform_save at hst ⊢
    cases hsrc : fs2.source with
    | none => simp [hsrc]
    | some src =>
      simp only [hsrc] at hst ⊢
      by_cases h1 : env2.backupFail
      · simp [h1, hsrc]
      · simp only [h1, if_false, Bool.false_eq_true] at hst ⊢
        cases hr : (update_safetensors_metadata src (hashStep src md) env2.fastIo
            env2.fallback).2 with
        | error e =>
          simp [hr, hsrc]
        | ok m =>
          simp only [hr] at hst ⊢
          by_cases h2 : env2.removeFail
          · simp [h2, hsrc]
          · simp only [h2, if_false, Bool.false_eq_true] at hst ⊢
            by_cases h3 : env2.renameFail
            · simp only [h3, if_true] at hst
              injection hst with hst2
              exact absurd hst2.symm hne
            · simp only [h3, if_false, Bool.false_eq_true] at hst
              by_cases h4 : discard
              · simp [h4] at hst
              · simp [h4] at hst

/-- C3 witness: the failure-safety statement instantiated on a missing-source
service write (which fails and clears the temp) and on a command save whose
backup step fails (stage `backupStage`, source untouched). -/
theorem save_failure_safety_witness :
    ((write_metadata_fs ⟨none, some [5], some [9]⟩ (Json.obj []) ⟨false, false⟩).1.source
        = (⟨none, some [5], some [9]⟩ : FS).source ∧
      (write_metadata_fs ⟨none, some [5], some [9]⟩ (Json.obj []) ⟨false, false⟩).1.temp
        = none ∧
      (write_metadata_fs ⟨none, some [5], some [9]⟩ (Json.obj []) ⟨false, false⟩).1.backup
        = (⟨none, some [5], some [9]⟩ : FS).backup) ∧
    (perform_save ⟨none, none, none⟩ false [] ⟨false, none, .error (), false, false⟩).1.source
      = (⟨none, none, none⟩ : FS).source :=
  ⟨(save_failure_safety ⟨none, some [5], some [9]⟩ (Json.obj []) ⟨false, false⟩
      ⟨none, none, none⟩ false [] ⟨false, none, .error (), false, false⟩).1 (by decide),
   (save_failure_safety ⟨none, some [5], some [9]⟩ (Json.obj []) ⟨false, false⟩
      ⟨none, none, none⟩ false [] ⟨false, none, .error (), false, false⟩).2
      Stage.backupStage (by decide) (by decide)⟩

/-- C3 counterexample: in the command save path a failing `os.rename` after
`os.remove(filepath)` succeeds is reported as a failure, yet the source file
is already gone and the temp file is left on disk — the original file is not
unchanged on this unrecovered error. -/
theorem perform_save_rename_loss :
    (perform_save ⟨some [0], none, none⟩ false [(hashKey, asc "0x00")]
        ⟨false, none, .ok [1, 2, 3], false, true⟩).2.1 = some Stage.renameStage ∧
    (perform_save ⟨some [0], none, none⟩ false [(hashKey, asc "0x00")]
        ⟨false, none, .ok [1, 2, 3], false, true⟩).1.source = none ∧
    (perform_save ⟨some [0], none, none⟩ false [(hashKey, asc "0x00")]
        ⟨false, none, .ok [1, 2, 3], false, true⟩).1.temp = some [1, 2, 3] := by
  decide

/-- C4 (amended): in the command save path, whenever the source exists and the
backup copy itself does not fail, a backup byte-identical to the pre-patch
source is placed at the backup path before any other step runs, regardless of
the user's keep/discard choice: the transaction's state trace begins with the
initial state, the stale-backup removal, and then the fresh backup of `src`.
(The original claim also covered the legacy editor path, which backs up only
on one choice — see the counterexample.) -/
theorem perform_save_backup_first (fs : FS) (discard : Bool)
    (md : List (List Nat × List Nat)) (env : Env) (src : List Nat)
    (hsrc : fs.source = some src) (hbf : env.backupFail = false) :
    ∃ rest, (perform_save fs discard md env).2.2 =
      fs :: { fs with backup := none } :: { fs with backup := some src } :: rest := by
  unfold perform_save
  rw [hsrc]
  simp only [hbf, if_false, Bool.false_eq_true]
  cases hr : (update_safetensors_metadata src (hashStep src md) env.fastIo
      env.fallback).2 with
  | error e => exact ⟨_, rfl⟩
  | ok m =>
    simp only
    by_cases h2 : env.removeFail
    · simp only [h2, if_true]
      exact ⟨_, rfl⟩
    · simp only [h2, if_false, Bool.false_eq_true]
      by_cases h3 : env.renameFail
      · simp only [h3, if_true]
        exact ⟨_, rfl⟩
      · simp only [h3, if_false, Bool.false_eq_true]
        by_cases h4 : discard
        · simp only [h4, if_true]
          exact ⟨_, rfl⟩
        · simp only [h4, if_false, Bool.false_eq_true]
          exact ⟨_, rfl⟩

/-- C4 witness: the backup-first trace on a concrete one-byte source whose
patch step fails; the first three trace states are as claimed. -/
theorem perform_save_backup_first_witness :
    ∃ rest, (perform_save ⟨some [7], none, none⟩ false [(hashKey, [])]
        ⟨false, none, .error (), false, false⟩).2.2 =
      (⟨some [7], none, none⟩ : FS) :: ⟨some [7], none, none⟩
        :: ⟨some [7], none, some [7]⟩ :: rest :=
  perform_save_backup_first ⟨some [7], none, none⟩ false [(hashKey, [])]
    ⟨false, none, .error (), false, false⟩ [7] rfl rfl

/-- C4 counterexample: the legacy `editor.py` save path overwrites the source
without ever creating a backup when the user declines one — no state in its
trace carries a backup, so the backup is not unconditional across the
repository's save transactions. -/
theorem editor_save_no_backup :
    (editor_save ⟨some [1], none, none⟩ true [2]).1.source = some [2] ∧
    ∀ s ∈ (editor_save ⟨some [1], none, none⟩ true [2]).2, s.backup = none := by
  decide

/-- C5: when the fast path reports failure the orchestrator runs the fallback
rewriter against the same source and temp path and returns its result, so the
caller sees an error exactly when the fast path failed and the fallback also
raised; a fast-path success is returned as the optimized method. -/
theorem fallback_recovery (src : List Nat) (md : List (List Nat × List Nat))
    (io : Option Nat) (fb : Except Unit (List Nat)) :
    ((fastAttempt src md io).2 = false → ∀ b, fb = .ok b →
      update_safetensors_metadata src md io fb = (some b, .ok Method.fallback)) ∧
    ((fastAttempt src md io).2 = true →
      update_safetensors_metadata src md io fb
        = ((fastAttempt src md io).1, .ok Method.optimized)) ∧
    ((update_safetensors_metadata src md io fb).2 = .error () ↔
      ((fastAttempt src md io).2 = false ∧ fb = .error ())) := by
  unfold update_safetensors_metadata
  cases hfa : fastAttempt src md io with
  | mk t s =>
    cases s with
    | true =>
      refine ⟨?_, ?_, ?_⟩
      · intro h
        cases h
      · intro _
        rfl
      · simp
    | false =>
      cases fb with
      | ok b =>
        refine ⟨?_, ?_, ?_⟩
        · intro _ b2 hb2
          cases hb2
          rfl
        · intro h
          cases h
        · simp
      | error e =>
        cases e
        refine ⟨?_, ?_, ?_⟩
        · intro _ b2 hb2
          cases hb2
        · intro h
          cases h
        · simp

/-- C5 witness: a source too short to patch makes the fast path fail; with a
fallback that writes `[9]`, the orchestrator returns the fallback method and
no error reaches the caller. -/
theorem fallback_recovery_witness :
    update_safetensors_metadata [] [] none (.ok [9]) = (some [9], .ok Method.fallback) :=
  (fallback_recovery [] [] none (.ok [9])).1 (by decide) [9] rfl

/-- C6: when the merged metadata lacks `modelspec.hash_sha256` the save
transaction inserts `"0x"` plus the lowercase hex SHA-256 of the source's
payload bytes (offset `8 + header_length` to end of file) under that key; when
the key is present the map is left untouched and nothing is recomputed. -/
theorem hash_completion (src : List Nat) (md : List (List Nat × List Nat)) :
    (hasKeyS md hashKey = false →
      hashStep src md = setKeyS md hashKey
        (asc "0x" ++ (toHexStr (sha256 (payloadBytes src))).map pyLower)) ∧
    (hasKeyS md hashKey = true → hashStep src md = md) := by
  constructor
  · intro h
    unfold hashStep
    rw [h]
    simp [compute_sha256, payloadBytes]
  · intro h
    unfold hashStep
    rw [h]
    simp

/-- C6 witness: the hash-completion step instantiated on the empty source and
empty metadata map. -/
theorem hash_completion_witness :
    hashStep [] [] = setKeyS [] hashKey
      (asc "0x" ++ (toHexStr (sha256 (payloadBytes []))).map pyLower) :=
  (hash_completion [] []).1 (by decide)

/-- C7: header decoding fails exactly when the file has fewer than 8 bytes,
fewer bytes remain than the declared header length, or the header bytes do
not parse as a JSON object; in particular any file shorter than 8 bytes (such
as a length field truncated to 4 bytes) makes both the read and the patch
fail with a format error, before anything is written. -/
theorem header_format_errors (file : List Nat) :
    (read_metadata file = .error () ↔
      (file.take 8).length ≠ 8 ∨
      ((file.drop 8).take (leVal (file.take 8))).length ≠ leVal (file.take 8) ∨
      ∀ ms : List (List Nat × Json),
        loadsBytes ((file.drop 8).take (leVal (file.take 8))) ≠ some (Json.obj ms)) ∧
    (file.length < 8 →
      read_metadata file = .error () ∧ ∀ edit, update_metadata file edit = none) := by
  constructor
  · unfold read_metadata
    by_cases h1 : (file.take 8).length ≠ 8
    · rw [if_pos h1]
      exact ⟨fun _ => Or.inl h1, fun _ => rfl⟩
    · rw [if_neg h1]
      by_cases h2 : ((file.drop 8).take (leVal (file.take 8))).length
          ≠ leVal (file.take 8)
      · rw [if_pos h2]
        exact ⟨fun _ => Or.inr (Or.inl h2), fun _ => rfl⟩
      · rw [if_neg h2]
        cases hlb : loadsBytes ((file.drop 8).take (leVal (file.take 8))) with
        | none =>
          simp only [hlb]
          exact ⟨fun _ => Or.inr (Or.inr fun ms hms => by cases hms), fun _ => trivial⟩
        | some j =>
          cases j with
          | obj ms =>
            simp only [hlb]
            constructor
            · intro hcontra
              cases hcontra
            · rintro (hc | hc | hc)
              · exact absurd hc h1
              · exact absurd hc h2
              · exact absurd rfl (hc ms)
          | null =>
            simp only [hlb]
            exact ⟨fun _ => Or.inr (Or.inr fun ms hms => by cases hms), fun _ => trivial⟩
          | bool b =>
            simp only [hlb]
            exact ⟨fun _ => Or.inr (Or.inr fun ms hms => by cases hms), fun _ => trivial⟩
          | num n =>
            simp only [hlb]
            exact ⟨fun _ => Or.inr (Or.inr fun ms hms => by cases hms), fun _ => trivial⟩
          | rawnum t =>
            simp only [hlb]
            exact ⟨fun _ => Or.inr (Or.inr fun ms hms => by cases hms), fun _ => trivial⟩
          | str s =>
            simp only [hlb]
            exact ⟨fun _ => Or.inr (Or.inr fun ms hms => by cases hms), fun _ => trivial⟩
          | arr es =>
            simp only [hlb]
            exact ⟨fun _ => Or.inr (Or.inr fun ms hms => by cases hms), fun _ => trivial⟩
  · intro hlen
    have h1 : (file.take 8).length ≠ 8 := by
      rw [List.length_take]
      omega
    refine ⟨?_, fun edit => ?_⟩
    · unfold read_metadata
      rw [if_pos h1]
    · have hd : decodeAndMerge file edit = none := by
        unfold decodeAndMerge
        rw [if_pos h1]
      unfold update_metadata
      rw [hd]

/-- C7 witness: a four-byte file (the truncated length-field scenario) fails
both the read and the fast-path patch. -/
theorem header_format_errors_witness :
    read_metadata [0, 0, 0, 0] = .error () ∧ update_metadata [0, 0, 0, 0] [] = none :=
  ⟨((header_format_errors [0, 0, 0, 0]).2 (by decide)).1,
   ((header_format_errors [0, 0, 0, 0]).2 (by decide)).2 []⟩

/-- C8 (amended to the fast path): the fast path reports progress only at 2%
step transitions — the reported values are even, strictly increasing and at
most 100 — so for any file size and chunk sequence it makes at most 50
progress calls during the copy.  (The original claim also covered the service
writer, which reports once per chunk — see the counterexample.) -/
theorem fast_progress_bound {file : List Nat} {edit : List (List Nat × List Nat)}
    {out reps : List Nat} (hum : update_metadata file edit = some (out, reps)) :
    reps.length ≤ 50 := by
  unfold update_metadata at hum
  cases hdm : decodeAndMerge file edit with
  | none =>
    rw [hdm] at hum
    cases hum
  | some h2 =>
    rw [hdm] at hum
    simp only at hum
    by_cases hov : 18446744073709551616 ≤ (dumpsB h2).length
    · rw [if_pos hov] at hum
      cases hum
    rw [if_neg hov] at hum
    injection hum with hpair
    injection hpair with ho hr
    by_cases hp : file.drop (8 + leVal (file.take 8)) = []
    · rw [← hr, hp, copyLoop]
      simp
    · have hplen : (file.drop (8 + leVal (file.take 8))).length
          = file.length - (8 + leVal (file.take 8)) := List.length_drop _ _
      have ht : 0 < file.length - (8 + leVal (file.take 8)) := by
        have := List.length_pos.2 hp
        omega
      have hb := copyLoop_bound (file.drop (8 + leVal (file.take 8))).length
        (file.drop (8 + leVal (file.take 8))) 0
        (file.length - (8 + leVal (file.take 8))) (-1) (Nat.le_refl _) ht
        (by omega) (Or.inl rfl)
      rw [← hr]
      omega

/-- C8 witness: a concrete successful fast-path run reports exactly once,
within the 50-call bound. -/
theorem fast_progress_bound_witness : ([100] : List Nat).length ≤ 50 :=
  fast_progress_bound hB_um

/-- C8 counterexample: the service write path invokes its progress callback on
every 1 MiB chunk, not per 2% step.  On a file with a decodable `\x7b\x7d`
header and a 101 MiB payload the write succeeds (so the copy loop runs), and
the callback fires 101 times — more than the claimed ~50 bound. -/
theorem service_progress_per_chunk :
    ∃ reps, write_metadata_reports (encodeFile [] (List.replicate 105906176 0))
        (Json.obj []) = some reps ∧ 50 < reps.length ∧
      (write_metadata (encodeFile [] (List.replicate 105906176 0))
        (Json.obj [])).isSome = true := by
  have hset : setKey ([] : List (List Nat × Json)) metaKey (Json.obj []) = msA := by
    simp [setKey, hasKey, msA]
  have hlt2 : (dumpsB (Json.obj (setKey ([] : List (List Nat × Json)) metaKey
      (Json.obj [])))).length < 18446744073709551616 := by
    rw [hset]
    exact lt_msA
  set p := List.replicate 105906176 (0 : Nat) with hp
  have htk : (dumpsB (Json.obj ([] : List (List Nat × Json))) ++ p).take
      (dumpsB (Json.obj ([] : List (List Nat × Json)))).length
      = dumpsB (Json.obj ([] : List (List Nat × Json))) := List.take_left' rfl
  have hds : (encodeFile [] p).drop
      (8 + (dumpsB (Json.obj ([] : List (List Nat × Json)))).length) = p := by
    unfold encodeFile
    exact List.drop_left' (by simp [leBytes_length])
  have hflen : (encodeFile [] p).length
      = 8 + (dumpsB (Json.obj ([] : List (List Nat × Json)))).length + p.length := by
    simp only [encodeFile, List.length_append, leBytes_length]
  have hwr : write_metadata_reports (encodeFile [] p) (Json.obj [])
      = some (serviceLoop p 0 (encodeFile [] p).length
          ((encodeFile [] p).length
            - (8 + (dumpsB (Json.obj ([] : List (List Nat × Json)))).length))) := by
    unfold write_metadata_reports
    simp only [encodeFile_take8, encodeFile_drop8, leBytes_length,
      leVal_header_len lt_nilObj, htk, hds]
    rw [if_neg (by omega), loadsBytes_dumpsB wf_nilObj]
    simp only [hset]
    rw [if_neg (by have := lt_msA; omega)]
  have hl : (serviceLoop p 0 (encodeFile [] p).length
      ((encodeFile [] p).length
        - (8 + (dumpsB (Json.obj ([] : List (List Nat × Json)))).length))).length
      = 101 := by
    rw [serviceLoop_length 105906176 _ _ _ _
      (by rw [hp, List.length_replicate])
      (by rw [hflen, hp, List.length_replicate]; norm_num)]
    rw [hp, List.length_replicate]
  refine ⟨_, hwr, ?_, ?_⟩
  · rw [hl]
    norm_num
  · rw [write_metadata_enc p (Json.obj []) wf_nilObj lt_nilObj hlt2]
    rfl

/-- C9: `compute_sha256` is total over arbitrary byte lists — malformed files
included — and always returns `"0x"` followed by 64 characters that are each
a lowercase hex digit; the hashed range is exactly the payload byte range
(empty when the declared header length runs past end of file). -/
theorem compute_sha256_total (file : List Nat) :
    compute_sha256 file
      = asc "0x" ++ (toHexStr (sha256 (payloadBytes file))).map pyLower ∧
    (compute_sha256 file).length = 66 ∧
    (compute_sha256 file).take 2 = asc "0x" ∧
    ∀ c ∈ (compute_sha256 file).drop 2,
      (48 ≤ c ∧ c ≤ 57) ∨ (97 ≤ c ∧ c ≤ 102) := by
  have he : compute_sha256 file
      = asc "0x" ++ (toHexStr (sha256 (payloadBytes file))).map pyLower := rfl
  refine ⟨he, ?_, ?_, ?_⟩
  · rw [he, List.length_append, List.length_map, toHexStr_length, sha256_length]
    decide
  · rw [he]
    exact List.take_left' (by decide)
  · rw [he]
    intro c hc
    rw [List.drop_left' (by decide : (asc "0x").length = 2)] at hc
    simp only [List.mem_map] at hc
    obtain ⟨b, hb, rfl⟩ := hc
    simp only [toHexStr, List.mem_flatMap, List.mem_cons, List.mem_singleton] at hb
    obtain ⟨x, hx, hmem⟩ := hb
    have hd : ∀ d : Nat, d < 16 →
        ((48 ≤ pyLower (hexDig d) ∧ pyLower (hexDig d) ≤ 57) ∨
          (97 ≤ pyLower (hexDig d) ∧ pyLower (hexDig d) ≤ 102)) := by decide
    rcases hmem with h | h | h
    · subst h
      exact hd _ (Nat.mod_lt _ (by norm_num))
    · subst h
      exact hd _ (Nat.mod_lt _ (by norm_num))
    · cases h

/-- C9 witness: the digest of the empty file (shorter than 8 bytes) still has
the full `"0x"` plus 64 hex character shape. -/
theorem compute_sha256_total_witness : (compute_sha256 []).length = 66 :=
  (compute_sha256_total []).2.1

/-- C10: a structurally valid file whose decoded header object has no
`"__metadata__"` key reads back as the empty metadata map rather than
failing. -/
theorem read_metadata_defaults_empty {file : List Nat} {ms : List (List Nat × Json)}
    (h8 : (file.take 8).length = 8)
    (hhb : ((file.drop 8).take (leVal (file.take 8))).length = leVal (file.take 8))
    (hlb : loadsBytes ((file.drop 8).take (leVal (file.take 8))) = some (Json.obj ms))
    (hnone : getKey ms metaKey = none) :
    read_metadata file = .ok (Json.obj []) := by
  unfold read_metadata
  rw [if_neg (by omega), if_neg (by omega), hlb]
  simp [hnone]

/-- C10 witness: the concrete file whose header is the empty JSON object reads
back as the empty metadata map. -/
theorem read_metadata_defaults_empty_witness :
    read_metadata (encodeFile [] []) = .ok (Json.obj []) :=
  read_metadata_defaults_empty
    (by rw [encodeFile_take8]; exact leBytes_length 8 _)
    (by rw [encodeFile_drop8, encodeFile_take8, leVal_header_len lt_nilObj,
          List.take_left' rfl])
    (by rw [encodeFile_drop8, encodeFile_take8, leVal_header_len lt_nilObj,
          List.take_left' rfl]
        exact loadsBytes_dumpsB wf_nilObj)
    (rfl : getKey ([] : List (List Nat × Json)) metaKey = none)
